import Mathlib

/-!
Shallow embedding of the Dash InstantSend subsystem
(`llmq/quorums_instantsend.cpp`): the lock database (`CInstantSendDb`),
request-id derivation (`CInstantSendLock::GetRequestId`), and the parts of
`CInstantSendManager` the verified claims are about.

Modelling conventions:
* `uint256` values are modelled as `Nat`, with `0` playing the role of the
  null hash (`uint256()`); block heights are `Int` (C++ `int`).
* Hashing (`CHashWriter`, `::SerializeHash`) is an external primitive per the
  spec; it is modelled as an injective encoding of the exact serialized bytes,
  so equal hashes correspond to equal serialized preimages.
* LevelDB key spaces are modelled as association lists with overwrite-on-insert
  (`alInsert`), matching `CDBBatch::Write`/`Erase` semantics; batched mutations
  read the pre-batch database, which the operation models reproduce by reading
  the entry-state explicitly.
* The in-memory LRU caches are modelled as unbounded maps (the source caps them
  at 10000 entries; no sequence considered here approaches the cap).
-/

set_option maxRecDepth 4000

/-- A transaction outpoint (`COutPoint`): source-tx hash plus output index. -/
structure COutPoint where
  hash : Nat
  n : Nat
deriving DecidableEq, Repr

/-- Version tag of a legacy `CInstantSendLock` (`islock_version`). -/
def islock_version : Nat := 0

/-- Version tag of a deterministic `CInstantSendLock` (`isdlock_version`). -/
def isdlock_version : Nat := 1

/-- `CInstantSendLock`: txid, ordered inputs, cycle hash (deterministic
variant only; null on legacy locks), and the aggregated BLS signature modelled
as its 96 raw bytes. -/
structure CInstantSendLock where
  version : Nat
  txid : Nat
  inputs : List COutPoint
  cycleHash : Nat
  sig : List Nat
deriving DecidableEq, Repr

/-- `CInstantSendLock::IsDeterministic()`. -/
def CInstantSendLock.IsDeterministic (l : CInstantSendLock) : Bool :=
  l.version == isdlock_version

/-- Association-list lookup (LevelDB point read / `unordered_map` find). -/
def alLookup {α β : Type} [DecidableEq α] : List (α × β) → α → Option β
  | [], _ => none
  | (k', v) :: rest, k => if k' = k then some v else alLookup rest k

/-- Association-list key erasure (`CDBBatch::Erase` / `map::erase`). -/
def alErase {α β : Type} [DecidableEq α] (m : List (α × β)) (k : α) : List (α × β) :=
  m.filter (fun p => decide (p.1 ≠ k))

/-- Association-list overwrite insert (`CDBBatch::Write` on an existing or
fresh key). -/
def alInsert {α β : Type} [DecidableEq α] (m : List (α × β)) (k : α) (v : β) : List (α × β) :=
  (k, v) :: alErase m k

/-- Set-style insert for key-only LevelDB entries (value `true`). -/
def ksInsert {α : Type} [DecidableEq α] (s : List α) (k : α) : List α :=
  if k ∈ s then s else k :: s

/-- Set-style erase for key-only LevelDB entries. -/
def ksErase {α : Type} [DecidableEq α] (s : List α) (k : α) : List α :=
  s.filter (fun x => decide (x ≠ k))

/-- State of `CInstantSendDb`: the persistent key spaces (`is_i`, `is_tx`,
`is_in`, `is_m`, `is_a1`, `is_a2`) and the three in-memory caches, plus the
monotone `best_confirmed_height` (initialised to 0). Heights in the mined and
archived indexes are stored decoded; the inverse-big-endian key encoding is
modelled separately by `BuildInversedISLockKey`. -/
structure DBState where
  islockByHash : List (Nat × CInstantSendLock)
  hashByTxid : List (Nat × Nat)
  hashByOutpoint : List (COutPoint × Nat)
  minedByHeight : List (Int × Nat)
  archivedByHeight : List (Int × Nat)
  archivedByHash : List Nat
  islockCache : List (Nat × Option CInstantSendLock)
  txidCache : List (Nat × Nat)
  outpointCache : List (COutPoint × Nat)
  best_confirmed_height : Int
deriving DecidableEq, Repr

/-- The freshly-constructed database (empty store, empty caches,
`best_confirmed_height = 0`). -/
def DBState.empty : DBState :=
  ⟨[], [], [], [], [], [], [], [], [], 0⟩

/-- Value read of `GetInstantSendLockByHash(hash, false)`: the null-hash guard
followed by a point read of `is_i`, bypassing the cache (used by the batched
removal paths, which read the pre-batch database). -/
def DBState.dbReadIslock (st : DBState) (hash : Nat) : Option CInstantSendLock :=
  if hash = 0 then none else alLookup st.islockByHash hash

/-- `CInstantSendDb::GetInstantSendLockByHash(hash, use_cache)`: null-hash
guard, optional cache hit, read-through with unconditional cache population
(a failed read caches the null result too). Returns the result together with
the updated cache state. -/
def DBState.getByHash (st : DBState) (hash : Nat) (use_cache : Bool) :
    Option CInstantSendLock × DBState :=
  if hash = 0 then (none, st)
  else
    match (if use_cache then alLookup st.islockCache hash else none) with
    | some cached => (cached, st)
    | none =>
        let res := alLookup st.islockByHash hash
        (res, { st with islockCache := alInsert st.islockCache hash res })

/-- `CInstantSendDb::GetInstantSendLockHashByTxid`: txid-cache hit, else a
read of `is_tx` (a miss leaves the out-parameter at the null hash `0`), with
cache population. -/
def DBState.getHashByTxid (st : DBState) (txid : Nat) : Nat × DBState :=
  match alLookup st.txidCache txid with
  | some h => (h, st)
  | none =>
      let h := (alLookup st.hashByTxid txid).getD 0
      (h, { st with txidCache := alInsert st.txidCache txid h })

/-- `CInstantSendDb::GetInstantSendLockByTxid`. -/
def DBState.getByTxid (st : DBState) (txid : Nat) : Option CInstantSendLock × DBState :=
  let (h, st1) := st.getHashByTxid txid
  st1.getByHash h true

/-- `CInstantSendDb::GetInstantSendLockByInput`: outpoint-cache hit, else a
read of `is_in`, with cache population, then a lookup by lock hash. -/
def DBState.getByInput (st : DBState) (outpoint : COutPoint) :
    Option CInstantSendLock × DBState :=
  match alLookup st.outpointCache outpoint with
  | some h => st.getByHash h true
  | none =>
      let h := (alLookup st.hashByOutpoint outpoint).getD 0
      ({ st with outpointCache := alInsert st.outpointCache outpoint h }).getByHash h true

/-- `CInstantSendDb::KnownInstantSendLock` (value): found by
`GetInstantSendLockByHash` or present in `is_a2` (`ARCHIVED_BY_HASH`). The
read-through cache population performed by the underlying lookup is not
tracked here; it never changes any later observable value. -/
def DBState.Known (st : DBState) (hash : Nat) : Bool :=
  (st.getByHash hash true).1.isSome || st.archivedByHash.contains hash

/-- `CInstantSendDb::WriteNewInstantSendLock`: one atomic batch writing all
three primary indexes, then cache population. -/
def DBState.writeNew (st : DBState) (hash : Nat) (islock : CInstantSendLock) : DBState :=
  { st with
    islockByHash := alInsert st.islockByHash hash islock
    hashByTxid := alInsert st.hashByTxid islock.txid hash
    hashByOutpoint := islock.inputs.foldl (fun m i => alInsert m i hash) st.hashByOutpoint
    islockCache := alInsert st.islockCache hash (some islock)
    txidCache := alInsert st.txidCache islock.txid hash
    outpointCache := islock.inputs.foldl (fun m i => alInsert m i hash) st.outpointCache }

/-- The primary-index erasures batched by `CInstantSendDb::RemoveInstantSendLock`
for one lock: delete `is_i`, `is_tx`, and one `is_in` entry per input. -/
def DBState.eraseLockPrimary (st : DBState) (hash : Nat) (islock : CInstantSendLock) : DBState :=
  { st with
    islockByHash := alErase st.islockByHash hash
    hashByTxid := alErase st.hashByTxid islock.txid
    hashByOutpoint := islock.inputs.foldl (fun m i => alErase m i) st.hashByOutpoint }

/-- The cache invalidation performed by `RemoveInstantSendLock` when
`keep_cache` is false. -/
def DBState.eraseLockCaches (st : DBState) (hash : Nat) (islock : CInstantSendLock) : DBState :=
  { st with
    islockCache := alErase st.islockCache hash
    txidCache := alErase st.txidCache islock.txid
    outpointCache := islock.inputs.foldl (fun m i => alErase m i) st.outpointCache }

/-- `CInstantSendDb::WriteInstantSendLockArchived`: write the height-indexed
archive entry (`is_a1`) and the by-hash archive entry (`is_a2`). -/
def DBState.archive (st : DBState) (hash : Nat) (nHeight : Int) : DBState :=
  { st with
    archivedByHeight := ksInsert st.archivedByHeight (nHeight, hash)
    archivedByHash := ksInsert st.archivedByHash hash }

/-- `CInstantSendDb::WriteInstantSendLockMined`. -/
def DBState.writeMined (st : DBState) (hash : Nat) (nHeight : Int) : DBState :=
  { st with minedByHeight := ksInsert st.minedByHeight (nHeight, hash) }

/-- `CInstantSendDb::RemoveInstantSendLockMined`. -/
def DBState.removeMined (st : DBState) (hash : Nat) (nHeight : Int) : DBState :=
  { st with minedByHeight := ksErase st.minedByHeight (nHeight, hash) }

/-- One iteration of the `RemoveConfirmedInstantSendLocks` loop, for the mined
entry `e = (height, islockHash)`. The lock read
(`GetInstantSendLockByHash(islockHash, false)`) goes against the pre-batch
database `st0` and populates the live cache; when the lock is found,
`RemoveInstantSendLock(batch, islockHash, islock)` batches the primary-index
erasures with the header-default `keep_cache = true` (the header is the sole
declaration site of that default; `true` is forced by the explicit
`keep_cache = false` argument that `RemoveChainedInstantSendLocks` passes, and
matches the spec's note that callers of this path immediately re-query). The
entry is archived at its own mined height and erased from `is_m`. -/
def removeConfirmedStep (st0 : DBState)
    (acc : List (Nat × CInstantSendLock) × DBState) (e : Int × Nat) :
    List (Nat × CInstantSendLock) × DBState :=
  let ret := acc.1
  let s := acc.2
  let islockHash := e.2
  match st0.dbReadIslock islockHash with
  | some islock =>
      let s :=
        if islockHash = 0 then s
        else { s with islockCache := alInsert s.islockCache islockHash (some islock) }
      let s := s.eraseLockPrimary islockHash islock
      let s := (s.archive islockHash e.1).removeMined islockHash e.1
      ((if (alLookup ret islockHash).isSome then ret else ret ++ [(islockHash, islock)]), s)
  | none =>
      let s :=
        if islockHash = 0 then s
        else { s with islockCache := alInsert s.islockCache islockHash none }
      (ret, (s.archive islockHash e.1).removeMined islockHash e.1)

/-- `CInstantSendDb::RemoveConfirmedInstantSendLocks(nUntilHeight)`: a no-op
returning the empty map when `nUntilHeight ≤ best_confirmed_height`; otherwise
advances `best_confirmed_height` and processes every mined entry with height
at most `nUntilHeight` (the inverse-big-endian key order makes the iterator
visit exactly those entries; the resulting state and returned map do not
depend on the visiting order). -/
def DBState.removeConfirmed (st : DBState) (nUntilHeight : Int) :
    List (Nat × CInstantSendLock) × DBState :=
  if nUntilHeight ≤ st.best_confirmed_height then ([], st)
  else
    let entries := st.minedByHeight.filter (fun e => decide (e.1 ≤ nUntilHeight))
    entries.foldl (removeConfirmedStep st)
      ([], { st with best_confirmed_height := nUntilHeight })

/-- `CInstantSendDb::RemoveArchivedInstantSendLocks(nUntilHeight)`: a no-op
when `nUntilHeight ≤ 0`; otherwise erases, for every `is_a1` entry with height
at most `nUntilHeight`, both the by-hash archive entry and the height-indexed
entry. -/
def DBState.removeArchived (st : DBState) (nUntilHeight : Int) : DBState :=
  if nUntilHeight ≤ 0 then st
  else
    let entries := st.archivedByHeight.filter (fun e => decide (e.1 ≤ nUntilHeight))
    entries.foldl
      (fun s e =>
        { s with
          archivedByHash := ksErase s.archivedByHash e.2
          archivedByHeight := ksErase s.archivedByHeight e })
      st

/-- `CInstantSendDb::GetInstantSendLocksByParent`: all `is_in` entries whose
outpoint spends an output of `parent` (a prefix iteration from
`COutPoint(parent, 0)`), yielding the indexed lock hashes. -/
def GetInstantSendLocksByParent (st : DBState) (parent : Nat) : List Nat :=
  (st.hashByOutpoint.filter (fun p => decide (p.1.hash = parent))).map (fun p => p.2)

/-- One child of the `RemoveChainedInstantSendLocks` inner loop: look the
child lock up in the pre-batch database; record the read outcome (the source
caches it); on success the child's txid is pushed once, guarded by the
`added` set. The accumulator is `(added, stack, processed)` where `processed`
records every processed child hash with its read result, in order. -/
def chainVisit (st : DBState)
    (acc : List Nat × List Nat × List (Nat × Option CInstantSendLock)) (childHash : Nat) :
    List Nat × List Nat × List (Nat × Option CInstantSendLock) :=
  let added := acc.1
  let stack := acc.2.1
  let res := acc.2.2
  match st.dbReadIslock childHash with
  | none => (added, stack, res ++ [(childHash, none)])
  | some childLock =>
      let res := res ++ [(childHash, some childLock)]
      if childLock.txid ∈ added then (added, stack, res)
      else (childLock.txid :: added, childLock.txid :: stack, res)

/-- The `RemoveChainedInstantSendLocks` worklist: pop a txid, process every
lock the outpoint index records as spending one of its outputs, push the
newly discovered descendant txids. All reads go against the fixed pre-batch
database `st`, exactly as in the source, where the erasures sit in an
unapplied batch while the walk runs. Fuel bounds the number of pops; the
chosen fuel (`st.islockByHash.length + 1`, see `DBState.removeChained`) is
proved sufficient for the stack to drain. -/
def chainWalk (st : DBState) :
    Nat → List Nat → List Nat → List (Nat × Option CInstantSendLock) →
    List Nat × List Nat × List (Nat × Option CInstantSendLock)
  | 0, stack, added, res => (stack, added, res)
  | _ + 1, [], added, res => ([], added, res)
  | fuel + 1, t :: rest, added, res =>
      let step := (GetInstantSendLocksByParent st t).foldl (chainVisit st) (added, rest, res)
      chainWalk st fuel step.2.1 step.1 step.2.2

/-- `CInstantSendDb::RemoveChainedInstantSendLocks(islockHash, txid, nHeight)`:
walk the descendants of `txid` through the outpoint index, batch the
primary-index erasure and the archive write (at `nHeight`) for every resolved
descendant lock, finally remove and archive the root lock itself, and return
the removed lock hashes with the root hash appended. Children whose hash no
longer resolves are skipped, leaving only a cached null read behind. -/
def DBState.removeChained (st : DBState) (islockHash : Nat) (txid : Nat) (nHeight : Int) :
    List Nat × DBState :=
  let walked := chainWalk st (st.islockByHash.length + 1) [txid] [] []
  let processed := walked.2.2
  let removed := processed.filterMap (fun p => p.2.map (fun l => (p.1, l)))
  let nulls := (processed.filter (fun p => p.2.isNone)).map (fun p => p.1)
  let st1 := removed.foldl
    (fun s hl => ((s.eraseLockPrimary hl.1 hl.2).eraseLockCaches hl.1 hl.2).archive hl.1 nHeight)
    st
  let st1 := nulls.foldl
    (fun s h => if h = 0 then s else { s with islockCache := alInsert s.islockCache h none })
    st1
  let st2 :=
    match st.dbReadIslock islockHash with
    | some rootLock =>
        (((st1.eraseLockPrimary islockHash rootLock).eraseLockCaches islockHash
            rootLock).archive islockHash nHeight)
    | none =>
        ({ st1 with
            islockCache :=
              if islockHash = 0 then st1.islockCache
              else alInsert st1.islockCache islockHash none }).archive islockHash nHeight
  (removed.map (fun p => p.1) ++ [islockHash], st2)

/-! ## Serialization and request-id derivation

Dash serialization at byte level: fixed-width little-endian integers,
compact-size prefixed vectors and strings, `COutPoint` as 32-byte hash plus
4-byte index. `CHashWriter` is modelled as an accumulating byte buffer whose
`GetHash` applies the idealized (injective) hash to the accumulated bytes. -/

/-- Fixed-width little-endian serialization of `v` on `nbytes` bytes. -/
def serLE : Nat → Nat → List Nat
  | 0, _ => []
  | k + 1, v => (v % 256) :: serLE k (v / 256)

/-- 4-byte little-endian serialization (`uint32_t`). -/
def serU32 (v : Nat) : List Nat := serLE 4 v

/-- 32-byte little-endian serialization (`uint256`). -/
def serU256 (v : Nat) : List Nat := serLE 32 v

/-- Bitcoin compact-size encoding of a length. -/
def serCompactSize (n : Nat) : List Nat :=
  if n < 253 then [n]
  else if n ≤ 0xffff then 253 :: serLE 2 n
  else if n ≤ 0xffffffff then 254 :: serLE 4 n
  else 255 :: serLE 8 n

/-- Serialization of a `COutPoint`: hash then index. -/
def serOutpoint (o : COutPoint) : List Nat := serU256 o.hash ++ serU32 o.n

/-- Serialization of a vector: compact-size count then the elements. -/
def serVec {α : Type} (f : α → List Nat) (l : List α) : List Nat :=
  serCompactSize l.length ++ (l.map f).flatten

/-- Serialization of a string: compact-size length then its bytes. -/
def serStrBytes (s : List Nat) : List Nat := serCompactSize s.length ++ s

/-- The ASCII bytes of `INPUTLOCK_REQUESTID_PREFIX` (the string "inlock"). -/
def INPUTLOCK_REQUESTID_TAG : List Nat := [105, 110, 108, 111, 99, 107]

/-- The ASCII bytes of `ISLOCK_REQUESTID_PREFIX` (the string "islock"). -/
def ISLOCK_REQUESTID_TAG : List Nat := [105, 115, 108, 111, 99, 107]

/-- Idealized hash of a byte string: an injective encoding of the bytes.
Hashing primitives are external collaborators per the spec, so the model
keeps exactly the property the claims rely on: the digest is a deterministic,
collision-free function of the serialized preimage. -/
def hashBytes (bs : List Nat) : Nat := bs.foldl (fun a b => a * 256 + b) 1

/-- `CHashWriter`: an accumulating serialization buffer. -/
structure CHashWriter where
  buf : List Nat
deriving DecidableEq, Repr

/-- A fresh `CHashWriter(SER_GETHASH, 0)`. -/
def CHashWriter.init : CHashWriter := ⟨[]⟩

/-- `hw << str` for a `std::string`. -/
def CHashWriter.writeStr (hw : CHashWriter) (s : List Nat) : CHashWriter :=
  ⟨hw.buf ++ serStrBytes s⟩

/-- `hw << outpoint` for a `COutPoint`. -/
def CHashWriter.writeOutpoint (hw : CHashWriter) (o : COutPoint) : CHashWriter :=
  ⟨hw.buf ++ serOutpoint o⟩

/-- `hw << inputs` for a `std::vector<COutPoint>`. -/
def CHashWriter.writeOutpoints (hw : CHashWriter) (v : List COutPoint) : CHashWriter :=
  ⟨hw.buf ++ serVec serOutpoint v⟩

/-- `CHashWriter::GetHash()`. -/
def CHashWriter.GetHash (hw : CHashWriter) : Nat := hashBytes hw.buf

/-- `CInstantSendLock::GetRequestId()`: hash the islock request-id tag
followed by the serialized input vector. -/
def CInstantSendLock.GetRequestId (l : CInstantSendLock) : Nat :=
  ((CHashWriter.init.writeStr ISLOCK_REQUESTID_TAG).writeOutpoints l.inputs).GetHash

/-- The input-lock request id computed in `TrySignInputLocks`:
`::SerializeHash(std::make_pair(INPUTLOCK_REQUESTID_PREFIX, in.prevout))`,
a pair serializing as the string followed by the outpoint. -/
def inputRequestId (prevout : COutPoint) : Nat :=
  ((CHashWriter.init.writeStr INPUTLOCK_REQUESTID_TAG).writeOutpoint prevout).GetHash

/-- Spec-side definition (§4.2): `requestId(inputLock) = H("inlock" || outpoint)`,
written directly from the spec's words for the refinement comparison. -/
def requestIdInputSpec (outpoint : COutPoint) : Nat :=
  hashBytes (serStrBytes INPUTLOCK_REQUESTID_TAG ++ serOutpoint outpoint)

/-- Spec-side definition (§4.2): `requestId(islock) = H("islock" || inputs)`,
written directly from the spec's words for the refinement comparison. -/
def requestIdIslockSpec (inputs : List COutPoint) : Nat :=
  hashBytes (serStrBytes ISLOCK_REQUESTID_TAG ++ serVec serOutpoint inputs)

/-- Serialization of a `CInstantSendLock` (`SERIALIZE_METHODS`): txid, input
vector, cycle hash for the deterministic variant only, then the 96 raw
signature bytes. -/
def serISLock (l : CInstantSendLock) : List Nat :=
  serU256 l.txid ++ serVec serOutpoint l.inputs ++
    (if l.IsDeterministic then serU256 l.cycleHash else []) ++ l.sig

/-- `::SerializeHash(islock)`: the canonical lock hash. -/
def SerializeHashISLock (l : CInstantSendLock) : Nat := hashBytes (serISLock l)

/-! ## Byte-level deserialization (`CDBWrapper::Read` of stored islocks)

`GetInstantSendLockByHash` deserializes the stored value first as a
deterministic lock and, if that extraction fails, as a legacy lock. A
`CDataStream` extraction fails exactly when it runs out of bytes (the lazy
BLS signature reads its 96 bytes unvalidated); trailing bytes are ignored. -/

/-- Parse `nbytes` little-endian bytes into a value, returning the remainder. -/
def parseLE : Nat → List Nat → Option (Nat × List Nat)
  | 0, bs => some (0, bs)
  | _ + 1, [] => none
  | k + 1, b :: rest =>
      match parseLE k rest with
      | none => none
      | some (v, rem) => some (v * 256 + b, rem)

/-- Parse a compact-size length, with the canonical-encoding check of
`ReadCompactSize`. -/
def parseCompactSize : List Nat → Option (Nat × List Nat)
  | [] => none
  | b :: rest =>
      if b < 253 then some (b, rest)
      else if b = 253 then
        match parseLE 2 rest with
        | none => none
        | some (v, rem) => if v < 253 then none else some (v, rem)
      else if b = 254 then
        match parseLE 4 rest with
        | none => none
        | some (v, rem) => if v < 0x10000 then none else some (v, rem)
      else
        match parseLE 8 rest with
        | none => none
        | some (v, rem) => if v < 0x100000000 then none else some (v, rem)

/-- Read `n` raw bytes. -/
def parseBytesN (n : Nat) (bs : List Nat) : Option (List Nat × List Nat) :=
  if bs.length < n then none else some (bs.take n, bs.drop n)

/-- Parse a `COutPoint`. -/
def parseOutpoint (bs : List Nat) : Option (COutPoint × List Nat) :=
  match parseLE 32 bs with
  | none => none
  | some (h, r1) =>
      match parseLE 4 r1 with
      | none => none
      | some (n, r2) => some (⟨h, n⟩, r2)

/-- Parse `count` consecutive outpoints. -/
def parseOutpoints : Nat → List Nat → Option (List COutPoint × List Nat)
  | 0, bs => some ([], bs)
  | k + 1, bs =>
      match parseOutpoint bs with
      | none => none
      | some (o, r) =>
          match parseOutpoints k r with
          | none => none
          | some (os, r') => some (o :: os, r')

/-- Deserialize a stored islock value as the given variant
(`fDeterministic = true` for `isdlock_version`): txid, inputs, cycle hash for
the deterministic variant, then 96 signature bytes; trailing bytes ignored. -/
def parseISLockBytes (fDeterministic : Bool) (bs : List Nat) : Option CInstantSendLock :=
  match parseLE 32 bs with
  | none => none
  | some (txid, r1) =>
      match parseCompactSize r1 with
      | none => none
      | some (cnt, r2) =>
          match parseOutpoints cnt r2 with
          | none => none
          | some (ins, r3) =>
              match (if fDeterministic then parseLE 32 r3 else some (0, r3)) with
              | none => none
              | some (cyc, r4) =>
                  match parseBytesN 96 r4 with
                  | none => none
                  | some (sigBytes, _) =>
                      some ⟨if fDeterministic then isdlock_version else islock_version,
                            txid, ins, cyc, sigBytes⟩

/-- The raw `is_i` key space together with the islock cache, for the
byte-level model of `GetInstantSendLockByHash`. -/
structure RawDB where
  islockByHashBytes : List (Nat × List Nat)
  islockCache : List (Nat × Option CInstantSendLock)
deriving DecidableEq, Repr

/-- Byte-level `CInstantSendDb::GetInstantSendLockByHash(hash, use_cache)`:
null-hash guard; cache hit; otherwise a first deserialization attempt with
`isdlock_version`, a second attempt as a legacy lock only when the first
fails, and unconditional cache population with whatever the version branch
produced (a null result included). -/
def rawGetInstantSendLockByHash (db : RawDB) (hash : Nat) (use_cache : Bool) :
    Option CInstantSendLock × RawDB :=
  if hash = 0 then (none, db)
  else
    match (if use_cache then alLookup db.islockCache hash else none) with
    | some cached => (cached, db)
    | none =>
        let stored := alLookup db.islockByHashBytes hash
        let ret :=
          match stored.bind (parseISLockBytes true) with
          | some l => some l
          | none => stored.bind (parseISLockBytes false)
        (ret, { db with islockCache := alInsert db.islockCache hash ret })

/-! ## Inverse-big-endian height keys (`BuildInversedISLockKey`) -/

/-- The `uint32_t` value `std::numeric_limits<uint32_t>::max() - nHeight`. -/
def inversedHeightValue (nHeight : Nat) : Nat := 2 ^ 32 - 1 - nHeight % 2 ^ 32

/-- The four bytes of a `uint32_t` in big-endian order, as laid out in the
serialized key by `htobe32` on the little-endian production platform. -/
def htobe32bytes (v : Nat) : List Nat :=
  [v / 2 ^ 24 % 256, v / 2 ^ 16 % 256, v / 2 ^ 8 % 256, v % 256]

/-- Recover the `uint32_t` from its big-endian bytes (`be32toh`). -/
def be32toh : List Nat → Nat
  | [a, b, c, d] => ((a * 256 + b) * 256 + c) * 256 + d
  | _ => 0

/-- `BuildInversedISLockKey(k, nHeight, islockHash)`: the tuple key whose
middle component is the big-endian encoding of `2^32 - 1 - nHeight`. -/
def BuildInversedISLockKey (k : List Nat) (nHeight : Nat) (islockHash : Nat) :
    List Nat × List Nat × Nat :=
  (k, htobe32bytes (inversedHeightValue nHeight), islockHash)

/-- The ASCII bytes of `DB_MINED_BY_HEIGHT_AND_HASH` (the string "is_m"). -/
def DB_MINED_BY_HEIGHT_AND_HASH : List Nat := [105, 115, 95, 109]

/-- Height decoding used by `RemoveConfirmedInstantSendLocks` and
`RemoveArchivedInstantSendLocks`:
`std::numeric_limits<uint32_t>::max() - be32toh(key)`. -/
def decodeInversedHeight (bs : List Nat) : Nat := 2 ^ 32 - 1 - be32toh bs

/-- Strict lexicographic byte order, the LevelDB comparator on the height
component of two keys sharing the same key-space tag. -/
def lexLtBytes : List Nat → List Nat → Bool
  | _, [] => false
  | [], _ :: _ => true
  | a :: as, b :: bs => if a < b then true else if b < a then false else lexLtBytes as bs

/-! ## Manager-side functions -/

/-- The chain, mempool, and consensus-parameter collaborators consumed by the
InstantSend core (external interfaces per §1 of the spec).
`txMinedHeight txid = some h` models `GetTransaction` succeeding with a
non-null block hash whose `CBlockIndex` has height `h`; `none` models an
unknown transaction (or one found only in the mempool, which yields a null
block hash). `hasChainLock h` models
`chainLocksHandler->HasChainLock(h, blockHashAt h)`. -/
structure ChainEnv where
  mempoolHas : Nat → Bool
  txMinedHeight : Nat → Option Int
  hasChainLock : Int → Bool
  chainHeight : Int
  nInstantSendConfirmationsRequired : Int

/-- A transaction as consumed by `CheckCanLock`: its txid and the prevouts of
its inputs. -/
structure CTransaction where
  txid : Nat
  vin : List COutPoint

/-- `CInstantSendManager::IsLockedInternal`:
`db.KnownInstantSendLock(db.GetInstantSendLockHashByTxid(txHash))`. -/
def IsLockedInternal (db : DBState) (txHash : Nat) : Bool :=
  db.Known (db.getHashByTxid txHash).1

/-- `CInstantSendManager::CheckCanLock` (outpoint overload): locked prevout
passes immediately; a mempool prevout fails; an unretrievable prevout fails;
a mined prevout passes iff its age `chainHeight - minedHeight + 1` reaches
`nInstantSendConfirmationsRequired` or its block is ChainLocked. -/
def CheckCanLockOutpoint (env : ChainEnv) (db : DBState) (outpoint : COutPoint) : Bool :=
  if IsLockedInternal db outpoint.hash then true
  else if env.mempoolHas outpoint.hash then false
  else
    match env.txMinedHeight outpoint.hash with
    | none => false
    | some minedHeight =>
        let nTxAge := env.chainHeight - minedHeight + 1
        if nTxAge < env.nInstantSendConfirmationsRequired && !env.hasChainLock minedHeight
        then false
        else true

/-- `CInstantSendManager::CheckCanLock` (transaction overload): inputless
transactions cannot be locked; otherwise every input prevout must pass. -/
def CheckCanLock (env : ChainEnv) (db : DBState) (tx : CTransaction) : Bool :=
  if tx.vin.isEmpty then false
  else tx.vin.all (fun o => CheckCanLockOutpoint env db o)

/-- The duplicate-detection loop of `PreVerifyInstantSendLock`:
`dups.emplace(o).second` fails exactly on a repeated outpoint. -/
def insertDupCheck : List COutPoint → List COutPoint → Bool
  | _, [] => true
  | seen, o :: rest => if o ∈ seen then false else insertDupCheck (o :: seen) rest

/-- `CInstantSendManager::PreVerifyInstantSendLock`: a null txid or empty
input list fails; then every input must be unique. -/
def PreVerifyInstantSendLock (islock : CInstantSendLock) : Bool :=
  if islock.txid = 0 || islock.inputs.isEmpty then false
  else insertDupCheck [] islock.inputs

/-- The peer-message collaborators of `ProcessMessageInstantSendLock`:
`blockHeight cycleHash` models `LookupBlockIndex(cycleHash)` returning the
block's height, and `dkgInterval` the active LLMQ parameter. -/
structure MsgEnv where
  blockHeight : Nat → Option Int
  dkgInterval : Int

/-- Outcome of `ProcessMessageInstantSendLock`: the misbehaviour score
assigned to the sending peer, if any, and the resulting
`pendingInstantSendLocks` map (lock hash to source peer and lock). -/
structure PMResult where
  misbehaving : Option Nat
  pending : List (Nat × (Int × CInstantSendLock))
deriving DecidableEq, Repr

/-- `CInstantSendManager::ProcessMessageInstantSendLock(pfrom, islock)`:
pre-verification failure scores the peer 100 and drops the message; a
deterministic lock whose cycle hash resolves to no block scores 1, and to a
block off the DKG interval scores 100; a lock already pending or known is
dropped silently; otherwise it is enqueued keyed by its hash. -/
def ProcessMessageInstantSendLock (env : MsgEnv) (db : DBState)
    (pending : List (Nat × (Int × CInstantSendLock))) (peerId : Int)
    (islock : CInstantSendLock) : PMResult :=
  let hash := SerializeHashISLock islock
  if !PreVerifyInstantSendLock islock then ⟨some 100, pending⟩
  else
    let detCheck : Option Nat :=
      if islock.IsDeterministic then
        match env.blockHeight islock.cycleHash with
        | none => some 1
        | some h => if h % env.dkgInterval ≠ 0 then some 100 else none
      else none
    match detCheck with
    | some score => ⟨some score, pending⟩
    | none =>
        if (alLookup pending hash).isSome || db.Known hash then ⟨none, pending⟩
        else ⟨none, alInsert pending hash (peerId, islock)⟩

/-- The database effects of
`CInstantSendManager::ProcessInstantSendLock(from, hash, islock)` (the
manager-side bookkeeping, relay, and conflict resolution touch no key space):
return if the lock is known; drop silently if the locked tx is mined in a
ChainLocked block; perform the duplicate-lock and conflicting-input logging
lookups (which populate caches but change no persistent state); then commit
via `WriteNewInstantSendLock` and, when the tx is mined, record the mined
height — colliding txids or inputs are logged but committed regardless. -/
def processInstantSendLock (env : ChainEnv) (st : DBState) (hash : Nat)
    (islock : CInstantSendLock) : DBState :=
  let (known, st) := st.getByHash hash true
  if known.isSome || st.archivedByHash.contains hash then st
  else
    match env.txMinedHeight islock.txid with
    | some h =>
        if env.hasChainLock h then st
        else
          let st := (st.getByTxid islock.txid).2
          let st := islock.inputs.foldl (fun s i => (s.getByInput i).2) st
          (st.writeNew hash islock).writeMined hash h
    | none =>
        let st := (st.getByTxid islock.txid).2
        let st := islock.inputs.foldl (fun s i => (s.getByInput i).2) st
        st.writeNew hash islock

/-- The database operations the invariant claims quantify over. -/
inductive DBOp where
  | writeNew (hash : Nat) (islock : CInstantSendLock)
  | writeMined (hash : Nat) (nHeight : Int)
  | removeMined (hash : Nat) (nHeight : Int)
  | removeConfirmed (nUntilHeight : Int)
  | removeArchived (nUntilHeight : Int)
  | removeChained (islockHash : Nat) (txid : Nat) (nHeight : Int)
  | processIS (hash : Nat) (islock : CInstantSendLock)

/-- Apply one operation to the database state. -/
def applyOp (env : ChainEnv) (st : DBState) : DBOp → DBState
  | .writeNew hash islock => st.writeNew hash islock
  | .writeMined hash nHeight => st.writeMined hash nHeight
  | .removeMined hash nHeight => st.removeMined hash nHeight
  | .removeConfirmed nUntilHeight => (st.removeConfirmed nUntilHeight).2
  | .removeArchived nUntilHeight => st.removeArchived nUntilHeight
  | .removeChained islockHash txid nHeight => (st.removeChained islockHash txid nHeight).2
  | .processIS hash islock => processInstantSendLock env st hash islock

/-- Apply a sequence of operations in order. -/
def applyOps (env : ChainEnv) (st : DBState) (ops : List DBOp) : DBState :=
  ops.foldl (applyOp env) st

/-- The spork and startup flags behind `IsInstantSendEnabled`. -/
structure SporkEnv where
  fReindex : Bool
  fImporting : Bool
  spork2Active : Bool

/-- `llmq::IsInstantSendEnabled()`:
`!fReindex && !fImporting && sporkManager.IsSporkActive(SPORK_2_INSTANTSEND_ENABLED)`. -/
def IsInstantSendEnabled (e : SporkEnv) : Bool :=
  !e.fReindex && !e.fImporting && e.spork2Active

/-- `CInstantSendManager::IsLocked(txHash)`. -/
def managerIsLocked (e : SporkEnv) (db : DBState) (txHash : Nat) : Bool :=
  if !IsInstantSendEnabled e then false
  else IsLockedInternal db txHash

/-- `CInstantSendManager::GetInstantSendLockByTxid(txid)` (returned value). -/
def managerGetInstantSendLockByTxid (e : SporkEnv) (db : DBState) (txid : Nat) :
    Option CInstantSendLock :=
  if !IsInstantSendEnabled e then none
  else (db.getByTxid txid).1

/-- `CInstantSendManager::AlreadyHave(inv)`: with InstantSend disabled every
inventory item is reported as already had; otherwise an item is had when
pending or known. -/
def managerAlreadyHave (e : SporkEnv) (db : DBState)
    (pending : List (Nat × (Int × CInstantSendLock))) (invHash : Nat) : Bool :=
  if !IsInstantSendEnabled e then true
  else (alLookup pending invHash).isSome || db.Known invHash

/-- The spec's store-exclusivity invariant (§8, invariant 1): any two locks
simultaneously present in the primary `is_i` index under distinct hashes have
distinct txids and disjoint input sets. -/
def StoreInv (st : DBState) : Prop :=
  ∀ h1 h2 l1 l2, h1 ≠ h2 → alLookup st.islockByHash h1 = some l1 →
    alLookup st.islockByHash h2 = some l2 →
    l1.txid ≠ l2.txid ∧ ∀ o ∈ l1.inputs, o ∉ l2.inputs

/-- Freshness of a commit against the current store: the lock's txid differs
from, and its inputs are disjoint from, every lock in the primary index. -/
def commitFresh (st : DBState) (islock : CInstantSendLock) : Prop :=
  ∀ h l, alLookup st.islockByHash h = some l →
    islock.txid ≠ l.txid ∧ ∀ o ∈ islock.inputs, o ∉ l.inputs

/-- The side condition of the amended C1: operations that commit a lock must
commit a fresh one; every other operation is unconstrained. -/
def OpFresh (st : DBState) : DBOp → Prop
  | .writeNew _ islock => commitFresh st islock
  | .processIS _ islock => commitFresh st islock
  | _ => True

/-- A run whose commits are all fresh at their point of application. -/
def FreshRun (env : ChainEnv) : DBState → List DBOp → Prop
  | _, [] => True
  | st, op :: rest => OpFresh st op ∧ FreshRun env (applyOp env st op) rest

/-- Transactions reachable from `root` through the outpoint index of the
(fixed) database: `root` itself, and the txid of any resolvable lock indexed
as spending an output of a reachable transaction. -/
inductive ReachTx (st : DBState) (root : Nat) : Nat → Prop where
  | refl : ReachTx st root root
  | step {t h l} : ReachTx st root t → h ∈ GetInstantSendLocksByParent st t →
      st.dbReadIslock h = some l → ReachTx st root l.txid

/-- A lock hash chained below `root`: indexed as spending an output of a
reachable transaction and resolving to the lock `l`. -/
def ChainedLock (st : DBState) (root : Nat) (h : Nat) (l : CInstantSendLock) : Prop :=
  ∃ t, ReachTx st root t ∧ h ∈ GetInstantSendLocksByParent st t ∧
    st.dbReadIslock h = some l

/-! ## Theorems -/

theorem alLookup_cons {α β : Type} [DecidableEq α] (a : α) (b : β) (rest : List (α × β))
    (k : α) : alLookup ((a, b) :: rest) k = if a = k then some b else alLookup rest k := rfl

theorem alErase_cons {α β : Type} [DecidableEq α] (a : α) (b : β) (rest : List (α × β))
    (k : α) :
    alErase ((a, b) :: rest) k = if a = k then alErase rest k else (a, b) :: alErase rest k := by
  by_cases h : a = k <;> simp [alErase, List.filter_cons, h]

theorem alLookup_alErase {α β : Type} [DecidableEq α] (m : List (α × β)) (k k' : α) :
    alLookup (alErase m k) k' = if k = k' then none else alLookup m k' := by
  induction m with
  | nil => by_cases h : k = k' <;> simp [alErase, alLookup, h]
  | cons p rest ih =>
      rcases p with ⟨a, b⟩
      by_cases hkk : k = k'
      · subst hkk
        by_cases hak : a = k <;> simp [alErase_cons, hak, alLookup_cons, ih]
      · by_cases hak : a = k <;> simp [alErase_cons, hak, alLookup_cons, ih, hkk]

theorem alLookup_alInsert {α β : Type} [DecidableEq α] (m : List (α × β)) (k : α) (v : β)
    (k' : α) :
    alLookup (alInsert m k v) k' = if k = k' then some v else alLookup m k' := by
  by_cases h : k = k' <;> simp [alInsert, alLookup_cons, alLookup_alErase, h]

/-- C10: with InstantSend disabled, `IsLocked` is false, the txid lookup is
null, and `AlreadyHave` is true, for every argument; and none of the three
depends on the lock database or the pending queue (their results agree across
arbitrary states). -/
theorem claim_C10_disabled_queries (e : SporkEnv) (hdis : IsInstantSendEnabled e = false) :
    ∀ (db db' : DBState) (pending pending' : List (Nat × (Int × CInstantSendLock)))
      (txid invHash : Nat),
      managerIsLocked e db txid = false ∧
      managerGetInstantSendLockByTxid e db txid = none ∧
      managerAlreadyHave e db pending invHash = true ∧
      managerIsLocked e db txid = managerIsLocked e db' txid ∧
      managerGetInstantSendLockByTxid e db txid = managerGetInstantSendLockByTxid e db' txid ∧
      managerAlreadyHave e db pending invHash = managerAlreadyHave e db' pending' invHash := by
  intro db db' pending pending' txid invHash
  simp [managerIsLocked, managerGetInstantSendLockByTxid, managerAlreadyHave, hdis]

/-- Witness for C10, at a spork environment with `fReindex` set. -/
theorem claim_C10_witness :
    IsInstantSendEnabled ⟨true, false, true⟩ = false ∧
    managerIsLocked ⟨true, false, true⟩ DBState.empty 7 = false :=
  ⟨by decide,
   (claim_C10_disabled_queries ⟨true, false, true⟩ (by decide)
      DBState.empty DBState.empty [] [] 7 7).1⟩

theorem insertDupCheck_eq_true_iff (l seen : List COutPoint) :
    insertDupCheck seen l = true ↔ l.Nodup ∧ ∀ o ∈ l, o ∉ seen := by
  induction l generalizing seen with
  | nil => simp [insertDupCheck]
  | cons o rest ih =>
      by_cases h : o ∈ seen
      · simp only [insertDupCheck, if_pos h]
        constructor
        · intro hfalse; cases hfalse
        · rintro ⟨-, hall⟩
          exact absurd h (hall o (List.mem_cons_self o rest))
      · simp only [insertDupCheck, if_neg h, ih, List.nodup_cons]
        constructor
        · rintro ⟨hnd, hall⟩
          have hor : o ∉ rest := fun hmem => (hall o hmem) (List.mem_cons_self o seen)
          refine ⟨⟨hor, hnd⟩, ?_⟩
          intro x hx
          rcases List.mem_cons.mp hx with rfl | hxr
          · exact h
          · exact fun hxs => (hall x hxr) (List.mem_cons_of_mem o hxs)
        · rintro ⟨⟨hor, hnd⟩, hall⟩
          refine ⟨hnd, ?_⟩
          intro x hxr hxcons
          rcases List.mem_cons.mp hxcons with h1 | hxs
          · exact hor (h1 ▸ hxr)
          · exact (hall x (List.mem_cons_of_mem o hxr)) hxs

/-- C8: `PreVerifyInstantSendLock` fails exactly on a null txid, an empty
input list, or a repeated input; and on any pre-verification failure
`ProcessMessageInstantSendLock` scores the sending peer 100 and leaves
`pendingInstantSendLocks` untouched. -/
theorem claim_C8_preverify_misbehaving (islock : CInstantSendLock) :
    (PreVerifyInstantSendLock islock = false ↔
      (islock.txid = 0 ∨ islock.inputs = [] ∨ ¬ islock.inputs.Nodup)) ∧
    (∀ (env : MsgEnv) (db : DBState) (pending : List (Nat × (Int × CInstantSendLock)))
       (peerId : Int),
       PreVerifyInstantSendLock islock = false →
       ProcessMessageInstantSendLock env db pending peerId islock = ⟨some 100, pending⟩) := by
  constructor
  · by_cases ht : islock.txid = 0
    · simp [PreVerifyInstantSendLock, ht]
    · by_cases he : islock.inputs = []
      · simp [PreVerifyInstantSendLock, ht, he]
      · have hguard : (islock.txid = 0 || islock.inputs.isEmpty) = false := by
          simp [ht, List.isEmpty_iff, he]
        simp [PreVerifyInstantSendLock, hguard, ht, he, Bool.eq_false_iff,
          insertDupCheck_eq_true_iff]
  · intro env db pending peerId hpv
    simp [ProcessMessageInstantSendLock, hpv]

/-- Witness for C8, at a lock with a null txid. -/
theorem claim_C8_witness :
    ProcessMessageInstantSendLock ⟨fun _ => none, 24⟩ DBState.empty [] 3
        ⟨islock_version, 0, [], 0, []⟩ = ⟨some 100, []⟩ :=
  (claim_C8_preverify_misbehaving ⟨islock_version, 0, [], 0, []⟩).2
    ⟨fun _ => none, 24⟩ DBState.empty [] 3 (by decide)

theorem CheckCanLockOutpoint_eq_true_iff (env : ChainEnv) (db : DBState) (o : COutPoint) :
    CheckCanLockOutpoint env db o = true ↔
      (IsLockedInternal db o.hash = true ∨
        (env.mempoolHas o.hash = false ∧ ∃ mh, env.txMinedHeight o.hash = some mh ∧
          (env.nInstantSendConfirmationsRequired ≤ env.chainHeight - mh + 1 ∨
            env.hasChainLock mh = true))) := by
  unfold CheckCanLockOutpoint
  by_cases hl : IsLockedInternal db o.hash = true
  · simp [hl]
  · by_cases hm : env.mempoolHas o.hash = true
    · simp [hl, hm]
    · rcases hmined : env.txMinedHeight o.hash with _ | mh
      · simp [hl, hm, hmined]
      · by_cases hc : env.hasChainLock mh = true
        · simp [hl, hm, hmined, hc]
        · by_cases ha : env.chainHeight - mh + 1 < env.nInstantSendConfirmationsRequired
          · simp [hl, hm, hmined, hc, ha]
          · simp [hl, hm, hmined, hc, ha]
            omega

/-- C2: `CheckCanLock(tx)` is true exactly when the transaction has at least
one input and every input prevout is already locked, or else is outside the
mempool, retrievable, and either aged at least
`nInstantSendConfirmationsRequired` or mined in a ChainLocked block. -/
theorem claim_C2_CheckCanLock_iff (env : ChainEnv) (db : DBState) (tx : CTransaction) :
    CheckCanLock env db tx = true ↔
      (tx.vin ≠ [] ∧ ∀ o ∈ tx.vin,
        IsLockedInternal db o.hash = true ∨
          (env.mempoolHas o.hash = false ∧ ∃ mh, env.txMinedHeight o.hash = some mh ∧
            (env.nInstantSendConfirmationsRequired ≤ env.chainHeight - mh + 1 ∨
              env.hasChainLock mh = true))) := by
  by_cases he : tx.vin = []
  · simp [CheckCanLock, he]
  · simp [CheckCanLock, he, List.isEmpty_iff, List.all_eq_true,
      CheckCanLockOutpoint_eq_true_iff]

/-- Witness for C2, at a transaction spending one output mined at depth 11
with 6 confirmations required. -/
theorem claim_C2_witness :
    CheckCanLock ⟨fun _ => false, fun _ => some 0, fun _ => false, 10, 6⟩ DBState.empty
        ⟨1, [⟨2, 0⟩]⟩ = true :=
  (claim_C2_CheckCanLock_iff ⟨fun _ => false, fun _ => some 0, fun _ => false, 10, 6⟩
      DBState.empty ⟨1, [⟨2, 0⟩]⟩).mpr
    ⟨by decide, by
      intro o ho
      rcases List.mem_singleton.mp ho with rfl
      exact Or.inr ⟨rfl, 0, rfl, Or.inl (by decide)⟩⟩

/-- C5: the input-lock request id is exactly the hash of the serialized pair
("inlock", outpoint), the islock request id is exactly the hash of the
serialized pair ("islock", ordered inputs) — byte-exact against the spec-side
definitions — and the islock request id depends only on the input sequence,
whatever the txid, cycle hash, and signature. -/
theorem claim_C5_request_id_determinism :
    (∀ prevout : COutPoint, inputRequestId prevout = requestIdInputSpec prevout) ∧
    (∀ l : CInstantSendLock, l.GetRequestId = requestIdIslockSpec l.inputs) ∧
    (∀ l1 l2 : CInstantSendLock, l1.inputs = l2.inputs →
      l1.GetRequestId = l2.GetRequestId) := by
  refine ⟨?_, ?_, ?_⟩
  · intro o
    simp [inputRequestId, requestIdInputSpec, CHashWriter.init, CHashWriter.writeStr,
      CHashWriter.writeOutpoint, CHashWriter.GetHash]
  · intro l
    simp [CInstantSendLock.GetRequestId, requestIdIslockSpec, CHashWriter.init,
      CHashWriter.writeStr, CHashWriter.writeOutpoints, CHashWriter.GetHash]
  · intro l1 l2 h
    simp [CInstantSendLock.GetRequestId, h]

/-- Witness for C5: two locks with equal inputs but different txid, version,
cycle hash, and signature share a request id. -/
theorem claim_C5_witness :
    CInstantSendLock.GetRequestId ⟨isdlock_version, 5, [⟨9, 1⟩], 7, [1]⟩ =
      CInstantSendLock.GetRequestId ⟨islock_version, 6, [⟨9, 1⟩], 8, [2]⟩ :=
  claim_C5_request_id_determinism.2.2 _ _ rfl

theorem best_writeNew (st : DBState) (h : Nat) (l : CInstantSendLock) :
    (st.writeNew h l).best_confirmed_height = st.best_confirmed_height := rfl

theorem best_eraseLockPrimary (st : DBState) (h : Nat) (l : CInstantSendLock) :
    (st.eraseLockPrimary h l).best_confirmed_height = st.best_confirmed_height := rfl

theorem best_eraseLockCaches (st : DBState) (h : Nat) (l : CInstantSendLock) :
    (st.eraseLockCaches h l).best_confirmed_height = st.best_confirmed_height := rfl

theorem best_archive (st : DBState) (h : Nat) (n : Int) :
    (st.archive h n).best_confirmed_height = st.best_confirmed_height := rfl

theorem best_writeMined (st : DBState) (h : Nat) (n : Int) :
    (st.writeMined h n).best_confirmed_height = st.best_confirmed_height := rfl

theorem best_removeMined (st : DBState) (h : Nat) (n : Int) :
    (st.removeMined h n).best_confirmed_height = st.best_confirmed_height := rfl

theorem best_getByHash (st : DBState) (h : Nat) (u : Bool) :
    (st.getByHash h u).2.best_confirmed_height = st.best_confirmed_height := by
  unfold DBState.getByHash
  split
  · rfl
  · split <;> rfl

theorem best_getHashByTxid (st : DBState) (t : Nat) :
    (st.getHashByTxid t).2.best_confirmed_height = st.best_confirmed_height := by
  unfold DBState.getHashByTxid
  split <;> rfl

theorem best_getByTxid (st : DBState) (t : Nat) :
    (st.getByTxid t).2.best_confirmed_height = st.best_confirmed_height := by
  unfold DBState.getByTxid
  rw [best_getByHash, best_getHashByTxid]

theorem best_getByInput (st : DBState) (o : COutPoint) :
    (st.getByInput o).2.best_confirmed_height = st.best_confirmed_height := by
  unfold DBState.getByInput
  split
  · rw [best_getByHash]
  · rw [best_getByHash]

theorem foldl_best_preserve {α : Type} (f : DBState → α → DBState)
    (hf : ∀ s a, (f s a).best_confirmed_height = s.best_confirmed_height) :
    ∀ (l : List α) (s : DBState),
      (l.foldl f s).best_confirmed_height = s.best_confirmed_height := by
  intro l
  induction l with
  | nil => intro s; rfl
  | cons a rest ih => intro s; rw [List.foldl_cons, ih, hf]

theorem removeConfirmed_foldl_best (st0 : DBState) (l : List (Int × Nat))
    (acc : List (Nat × CInstantSendLock) × DBState) :
    (l.foldl (removeConfirmedStep st0) acc).2.best_confirmed_height =
      acc.2.best_confirmed_height := by
  induction l generalizing acc with
  | nil => rfl
  | cons e rest ih =>
      rw [List.foldl_cons, ih]
      cases h : st0.dbReadIslock e.2 <;>
        simp [removeConfirmedStep, h, DBState.eraseLockPrimary, DBState.archive,
          DBState.removeMined] <;>
        split <;> rfl

/-- `RemoveConfirmedInstantSendLocks` with `nUntilHeight` at most
`best_confirmed_height` returns the empty map and changes nothing. -/
theorem removeConfirmed_noop (st : DBState) (n : Int)
    (h : n ≤ st.best_confirmed_height) : st.removeConfirmed n = ([], st) := by
  simp [DBState.removeConfirmed, h]

theorem removeConfirmed_best_of_gt (st : DBState) (n : Int)
    (h : st.best_confirmed_height < n) :
    (st.removeConfirmed n).2.best_confirmed_height = n := by
  unfold DBState.removeConfirmed
  rw [if_neg (by omega)]
  rw [removeConfirmed_foldl_best]

theorem removeArchived_best (st : DBState) (n : Int) :
    (st.removeArchived n).best_confirmed_height = st.best_confirmed_height := by
  unfold DBState.removeArchived
  split
  · rfl
  · apply foldl_best_preserve
    intro s a
    rfl

theorem removeChained_best (st : DBState) (islockHash txid : Nat) (nHeight : Int) :
    (st.removeChained islockHash txid nHeight).2.best_confirmed_height =
      st.best_confirmed_height := by
  unfold DBState.removeChained
  have h1 : ∀ (l : List (Nat × CInstantSendLock)) (s : DBState),
      (l.foldl (fun s hl =>
        ((s.eraseLockPrimary hl.1 hl.2).eraseLockCaches hl.1 hl.2).archive hl.1 nHeight)
        s).best_confirmed_height = s.best_confirmed_height := by
    intro l s
    apply foldl_best_preserve
    intro s' a
    rfl
  have h2 : ∀ (l : List Nat) (s : DBState),
      (l.foldl (fun s h =>
        if h = 0 then s else { s with islockCache := alInsert s.islockCache h none })
        s).best_confirmed_height = s.best_confirmed_height := by
    intro l s
    apply foldl_best_preserve
    intro s' a
    split <;> rfl
  have hcache : ∀ (s : DBState) (c : List (Nat × Option CInstantSendLock)),
      ({ s with islockCache := c } : DBState).best_confirmed_height =
        s.best_confirmed_height :=
    fun _ _ => rfl
  cases hroot : st.dbReadIslock islockHash
  · simp only [hroot]
    rw [best_archive, hcache, h2, h1]
  · simp only [hroot]
    rw [best_archive, best_eraseLockCaches, best_eraseLockPrimary, h2, h1]

theorem processIS_best (env : ChainEnv) (st : DBState) (hash : Nat)
    (islock : CInstantSendLock) :
    (processInstantSendLock env st hash islock).best_confirmed_height =
      st.best_confirmed_height := by
  unfold processInstantSendLock
  have hinputs : ∀ (l : List COutPoint) (s : DBState),
      (l.foldl (fun s i => (s.getByInput i).2) s).best_confirmed_height =
        s.best_confirmed_height := by
    intro l s
    apply foldl_best_preserve
    intro s' a
    exact best_getByInput s' a
  rcases hget : st.getByHash hash true with ⟨known, st1⟩
  have hst1 : st1.best_confirmed_height = st.best_confirmed_height := by
    have h := best_getByHash st hash true
    rw [hget] at h
    exact h
  simp only [hget]
  split
  · exact hst1
  · cases hm : env.txMinedHeight islock.txid
    · simp only [hm]
      rw [best_writeNew, hinputs, best_getByTxid, hst1]
    · simp only [hm]
      split
      · exact hst1
      · rw [best_writeMined, best_writeNew, hinputs, best_getByTxid, hst1]

theorem applyOp_best_mono (env : ChainEnv) (st : DBState) (op : DBOp) :
    st.best_confirmed_height ≤ (applyOp env st op).best_confirmed_height := by
  cases op with
  | writeNew h l => exact le_of_eq (best_writeNew st h l).symm
  | writeMined h n => exact le_of_eq (best_writeMined st h n).symm
  | removeMined h n => exact le_of_eq (best_removeMined st h n).symm
  | removeConfirmed n =>
      by_cases hle : n ≤ st.best_confirmed_height
      · show st.best_confirmed_height ≤ (st.removeConfirmed n).2.best_confirmed_height
        rw [removeConfirmed_noop st n hle]
      · show st.best_confirmed_height ≤ (st.removeConfirmed n).2.best_confirmed_height
        rw [removeConfirmed_best_of_gt st n (by omega)]
        omega
  | removeArchived n => exact le_of_eq (removeArchived_best st n).symm
  | removeChained h t n => exact le_of_eq (removeChained_best st h t n).symm
  | processIS h l => exact le_of_eq (processIS_best env st h l).symm

theorem applyOps_best_mono (env : ChainEnv) :
    ∀ (ops : List DBOp) (st : DBState),
      st.best_confirmed_height ≤ (applyOps env st ops).best_confirmed_height := by
  intro ops
  induction ops with
  | nil => intro st; exact le_refl _
  | cons op rest ih =>
      intro st
      exact le_trans (applyOp_best_mono env st op) (ih (applyOp env st op))

/-- C4: `best_confirmed_height` is monotone non-decreasing across every
sequence of database operations; `RemoveConfirmedInstantSendLocks` with
`nUntilHeight ≤ best_confirmed_height` returns the empty set and leaves the
database (and so `best_confirmed_height`) unchanged, while a call with
`nUntilHeight > best_confirmed_height` sets `best_confirmed_height` to
`nUntilHeight`. -/
theorem claim_C4_best_confirmed_monotone (env : ChainEnv) (st : DBState)
    (ops : List DBOp) (n : Int) :
    (n ≤ st.best_confirmed_height → st.removeConfirmed n = ([], st)) ∧
    (st.best_confirmed_height < n →
      (st.removeConfirmed n).2.best_confirmed_height = n) ∧
    st.best_confirmed_height ≤ (applyOps env st ops).best_confirmed_height :=
  ⟨removeConfirmed_noop st n, removeConfirmed_best_of_gt st n, applyOps_best_mono env ops st⟩

/-- Witness for C4: a confirmation call at the current best height is a
no-op on the fresh database. -/
theorem claim_C4_witness : DBState.empty.removeConfirmed 0 = ([], DBState.empty) :=
  (claim_C4_best_confirmed_monotone ⟨fun _ => false, fun _ => none, fun _ => false, 0, 0⟩
    DBState.empty [] 0).1 (by decide)

theorem be32toh_htobe32bytes (v : Nat) (hv : v < 2 ^ 32) :
    be32toh (htobe32bytes v) = v := by
  simp only [be32toh, htobe32bytes]
  omega

theorem lexLt_htobe32 (a b : Nat) (ha : a < 2 ^ 32) (hb : b < 2 ^ 32) :
    lexLtBytes (htobe32bytes a) (htobe32bytes b) = true ↔ a < b := by
  simp only [htobe32bytes, lexLtBytes]
  split_ifs <;> simp <;> omega

/-- C6: the height component of mined and archived keys is the big-endian
encoding of `2^32 - 1 - height`; on `[0, 2^32)` the encoding is strictly
order-reversing under lexicographic byte comparison, injective, and decoding
by `2^32 - 1 - be32toh` recovers the height. -/
theorem claim_C6_inverse_height_key (h1 h2 : Nat) (hb1 : h1 < 2 ^ 32) (hb2 : h2 < 2 ^ 32) :
    (h1 < h2 →
      lexLtBytes (BuildInversedISLockKey DB_MINED_BY_HEIGHT_AND_HASH h2 0).2.1
        (BuildInversedISLockKey DB_MINED_BY_HEIGHT_AND_HASH h1 0).2.1 = true) ∧
    ((BuildInversedISLockKey DB_MINED_BY_HEIGHT_AND_HASH h1 0).2.1 =
        (BuildInversedISLockKey DB_MINED_BY_HEIGHT_AND_HASH h2 0).2.1 → h1 = h2) ∧
    decodeInversedHeight (BuildInversedISLockKey DB_MINED_BY_HEIGHT_AND_HASH h1 0).2.1 = h1 := by
  have hv1 : inversedHeightValue h1 < 2 ^ 32 := by unfold inversedHeightValue; omega
  have hv2 : inversedHeightValue h2 < 2 ^ 32 := by unfold inversedHeightValue; omega
  refine ⟨?_, ?_, ?_⟩
  · intro hlt
    show lexLtBytes (htobe32bytes (inversedHeightValue h2))
      (htobe32bytes (inversedHeightValue h1)) = true
    rw [lexLt_htobe32 _ _ hv2 hv1]
    unfold inversedHeightValue
    omega
  · intro heq
    have h := congrArg be32toh heq
    show h1 = h2
    rw [show (BuildInversedISLockKey DB_MINED_BY_HEIGHT_AND_HASH h1 0).2.1 =
          htobe32bytes (inversedHeightValue h1) from rfl,
        show (BuildInversedISLockKey DB_MINED_BY_HEIGHT_AND_HASH h2 0).2.1 =
          htobe32bytes (inversedHeightValue h2) from rfl] at h
    rw [be32toh_htobe32bytes _ hv1, be32toh_htobe32bytes _ hv2] at h
    unfold inversedHeightValue at h
    omega
  · show decodeInversedHeight (htobe32bytes (inversedHeightValue h1)) = h1
    unfold decodeInversedHeight
    rw [be32toh_htobe32bytes _ hv1]
    unfold inversedHeightValue
    omega

/-- Witness for C6 at heights 3 < 5. -/
theorem claim_C6_witness :
    lexLtBytes (BuildInversedISLockKey DB_MINED_BY_HEIGHT_AND_HASH 5 0).2.1
      (BuildInversedISLockKey DB_MINED_BY_HEIGHT_AND_HASH 3 0).2.1 = true ∧
    decodeInversedHeight (BuildInversedISLockKey DB_MINED_BY_HEIGHT_AND_HASH 3 0).2.1 = 3 :=
  ⟨(claim_C6_inverse_height_key 3 5 (by norm_num) (by norm_num)).1 (by norm_num),
   (claim_C6_inverse_height_key 3 5 (by norm_num) (by norm_num)).2.2⟩

/-- C7 counterexample: for a stored deterministic lock the first
deserialization attempt (as `isdlock_version`) succeeds and its result is
what the cache receives; the second (legacy) attempt, had it run, would have
produced a different lock (no cycle hash, displaced signature bytes) — so the
cache is populated with the result of the first attempt, not the second. -/
theorem claim_C7_counterexample :
    (rawGetInstantSendLockByHash
        ⟨[(9, serISLock ⟨isdlock_version, 1, [⟨2, 3⟩], 4, List.replicate 96 0⟩)], []⟩
        9 true).2.islockCache =
      [(9, some ⟨isdlock_version, 1, [⟨2, 3⟩], 4, List.replicate 96 0⟩)] ∧
    parseISLockBytes true (serISLock ⟨isdlock_version, 1, [⟨2, 3⟩], 4, List.replicate 96 0⟩) =
      some ⟨isdlock_version, 1, [⟨2, 3⟩], 4, List.replicate 96 0⟩ ∧
    parseISLockBytes false (serISLock ⟨isdlock_version, 1, [⟨2, 3⟩], 4, List.replicate 96 0⟩) ≠
      some ⟨isdlock_version, 1, [⟨2, 3⟩], 4, List.replicate 96 0⟩ :=
  ⟨by decide, by decide, by decide⟩

/-- C7 amended: on a cache miss for a stored value, the version branch of
`GetInstantSendLockByHash` populates the cache with the result of the first
(deterministic) deserialization attempt whenever that attempt succeeds; only
when it fails does the second (legacy) attempt run, and then its result —
null included — is what gets cached and returned. -/
theorem claim_C7_amended_cache_population (db : RawDB) (hash : Nat) (bs : List Nat)
    (hh : hash ≠ 0) (hmiss : alLookup db.islockCache hash = none)
    (hstored : alLookup db.islockByHashBytes hash = some bs) :
    (∀ l, parseISLockBytes true bs = some l →
      rawGetInstantSendLockByHash db hash true =
        (some l, { db with islockCache := alInsert db.islockCache hash (some l) })) ∧
    (parseISLockBytes true bs = none →
      rawGetInstantSendLockByHash db hash true =
        (parseISLockBytes false bs,
         { db with islockCache := alInsert db.islockCache hash (parseISLockBytes false bs) })) := by
  constructor
  · intro l hl
    simp [rawGetInstantSendLockByHash, hh, hmiss, hstored, hl]
  · intro hl
    simp [rawGetInstantSendLockByHash, hh, hmiss, hstored, hl]

/-- Witness for the amended C7, at the stored deterministic lock of the
counterexample. -/
theorem claim_C7_witness :
    rawGetInstantSendLockByHash
        ⟨[(9, serISLock ⟨isdlock_version, 1, [⟨2, 3⟩], 4, List.replicate 96 0⟩)], []⟩ 9 true =
      (some ⟨isdlock_version, 1, [⟨2, 3⟩], 4, List.replicate 96 0⟩,
       ⟨[(9, serISLock ⟨isdlock_version, 1, [⟨2, 3⟩], 4, List.replicate 96 0⟩)],
        [(9, some ⟨isdlock_version, 1, [⟨2, 3⟩], 4, List.replicate 96 0⟩)]⟩) :=
  (claim_C7_amended_cache_population
      ⟨[(9, serISLock ⟨isdlock_version, 1, [⟨2, 3⟩], 4, List.replicate 96 0⟩)], []⟩
      9 (serISLock ⟨isdlock_version, 1, [⟨2, 3⟩], 4, List.replicate 96 0⟩)
      (by decide) rfl rfl).1
    ⟨isdlock_version, 1, [⟨2, 3⟩], 4, List.replicate 96 0⟩ (by decide)

theorem lookup_sub_trans {α β : Type} [DecidableEq α] {m1 m2 m3 : List (α × β)}
    (h12 : ∀ h, alLookup m2 h = none ∨ alLookup m2 h = alLookup m1 h)
    (h23 : ∀ h, alLookup m3 h = none ∨ alLookup m3 h = alLookup m2 h) :
    ∀ h, alLookup m3 h = none ∨ alLookup m3 h = alLookup m1 h := by
  intro h
  rcases h23 h with h3 | h3
  · exact Or.inl h3
  · rcases h12 h with h2 | h2
    · exact Or.inl (h3.trans h2)
    · exact Or.inr (h3.trans h2)

theorem lookup_sub_alErase {α β : Type} [DecidableEq α] (m : List (α × β)) (k : α) :
    ∀ h, alLookup (alErase m k) h = none ∨ alLookup (alErase m k) h = alLookup m h := by
  intro h
  rw [alLookup_alErase]
  by_cases hk : k = h
  · exact Or.inl (if_pos hk)
  · exact Or.inr (if_neg hk)

theorem removeConfirmedStep_islockByHash (st0 : DBState)
    (acc : List (Nat × CInstantSendLock) × DBState) (e : Int × Nat) :
    (removeConfirmedStep st0 acc e).2.islockByHash = acc.2.islockByHash ∨
    (removeConfirmedStep st0 acc e).2.islockByHash = alErase acc.2.islockByHash e.2 := by
  cases hr : st0.dbReadIslock e.2
  · left
    simp only [removeConfirmedStep, hr]
    split <;> rfl
  · right
    simp only [removeConfirmedStep, hr]
    split <;> rfl

theorem removeConfirmed_foldl_islockByHash_sub (st0 : DBState) (l : List (Int × Nat)) :
    ∀ (acc : List (Nat × CInstantSendLock) × DBState) (h : Nat),
      alLookup (l.foldl (removeConfirmedStep st0) acc).2.islockByHash h = none ∨
      alLookup (l.foldl (removeConfirmedStep st0) acc).2.islockByHash h =
        alLookup acc.2.islockByHash h := by
  induction l with
  | nil => intro acc h; exact Or.inr rfl
  | cons e rest ih =>
      intro acc
      have hstep : ∀ h,
          alLookup (removeConfirmedStep st0 acc e).2.islockByHash h = none ∨
          alLookup (removeConfirmedStep st0 acc e).2.islockByHash h =
            alLookup acc.2.islockByHash h := by
        rcases removeConfirmedStep_islockByHash st0 acc e with heq | heq
        · intro h; exact Or.inr (by rw [heq])
        · intro h
          rw [heq]
          exact lookup_sub_alErase acc.2.islockByHash e.2 h
      exact lookup_sub_trans hstep (ih (removeConfirmedStep st0 acc e))

theorem removeConfirmed_islockByHash_sub (st : DBState) (n : Int) :
    ∀ h, alLookup (st.removeConfirmed n).2.islockByHash h = none ∨
      alLookup (st.removeConfirmed n).2.islockByHash h = alLookup st.islockByHash h := by
  unfold DBState.removeConfirmed
  split
  · intro h; exact Or.inr rfl
  · intro h
    exact removeConfirmed_foldl_islockByHash_sub st _
      ([], { st with best_confirmed_height := n }) h

theorem removeArchived_islockByHash (st : DBState) (n : Int) :
    (st.removeArchived n).islockByHash = st.islockByHash := by
  unfold DBState.removeArchived
  split
  · rfl
  · generalize st.archivedByHeight.filter (fun e => decide (e.1 ≤ n)) = entries
    induction entries generalizing st with
    | nil => rfl
    | cons e rest ih => exact ih _

theorem removeChained_islockByHash_sub (st : DBState) (islockHash txid : Nat)
    (nHeight : Int) :
    ∀ h, alLookup (st.removeChained islockHash txid nHeight).2.islockByHash h = none ∨
      alLookup (st.removeChained islockHash txid nHeight).2.islockByHash h =
        alLookup st.islockByHash h := by
  unfold DBState.removeChained
  have hfold1 : ∀ (l : List (Nat × CInstantSendLock)) (s : DBState) (h : Nat),
      alLookup (l.foldl (fun s hl =>
        ((s.eraseLockPrimary hl.1 hl.2).eraseLockCaches hl.1 hl.2).archive hl.1 nHeight)
        s).islockByHash h = none ∨
      alLookup (l.foldl (fun s hl =>
        ((s.eraseLockPrimary hl.1 hl.2).eraseLockCaches hl.1 hl.2).archive hl.1 nHeight)
        s).islockByHash h = alLookup s.islockByHash h := by
    intro l
    induction l with
    | nil => intro s h; exact Or.inr rfl
    | cons e rest ih =>
        intro s
        refine lookup_sub_trans ?_ (ih (((s.eraseLockPrimary e.1 e.2).eraseLockCaches
          e.1 e.2).archive e.1 nHeight))
        intro h
        exact lookup_sub_alErase s.islockByHash e.1 h
  have hfold2 : ∀ (l : List Nat) (s : DBState),
      (l.foldl (fun s h =>
        if h = 0 then s else { s with islockCache := alInsert s.islockCache h none })
        s).islockByHash = s.islockByHash := by
    intro l
    induction l with
    | nil => intro s; rfl
    | cons e rest ih =>
        intro s
        rw [List.foldl_cons, ih]
        split <;> rfl
  cases hroot : st.dbReadIslock islockHash
  · simp only [hroot]
    intro h
    have := hfold1 (List.filterMap (fun p => Option.map (fun l => (p.1, l)) p.2)
      (chainWalk st (st.islockByHash.length + 1) [txid] [] []).2.2) st h
    rw [← hfold2 ((List.filter (fun p => p.2.isNone)
      (chainWalk st (st.islockByHash.length + 1) [txid] [] []).2.2).map (fun p => p.1))] at this
    exact this
  · simp only [hroot]
    intro h
    refine lookup_sub_trans
      (hfold1 (List.filterMap (fun p => Option.map (fun l => (p.1, l)) p.2)
        (chainWalk st (st.islockByHash.length + 1) [txid] [] []).2.2) st) ?_ h
    intro h'
    rw [show ∀ (s : DBState) (a : Nat) (v : CInstantSendLock),
        (((s.eraseLockPrimary a v).eraseLockCaches a v).archive a nHeight).islockByHash =
          alErase s.islockByHash a from fun _ _ _ => rfl]
    rw [hfold2]
    exact lookup_sub_alErase _ islockHash h'

theorem islockByHash_getByHash (st : DBState) (h : Nat) (u : Bool) :
    (st.getByHash h u).2.islockByHash = st.islockByHash := by
  unfold DBState.getByHash
  split
  · rfl
  · split <;> rfl

theorem islockByHash_getHashByTxid (st : DBState) (t : Nat) :
    (st.getHashByTxid t).2.islockByHash = st.islockByHash := by
  unfold DBState.getHashByTxid
  split <;> rfl

theorem islockByHash_getByTxid (st : DBState) (t : Nat) :
    (st.getByTxid t).2.islockByHash = st.islockByHash := by
  unfold DBState.getByTxid
  rw [islockByHash_getByHash, islockByHash_getHashByTxid]

theorem islockByHash_getByInput (st : DBState) (o : COutPoint) :
    (st.getByInput o).2.islockByHash = st.islockByHash := by
  unfold DBState.getByInput
  split
  · rw [islockByHash_getByHash]
  · rw [islockByHash_getByHash]

theorem islockByHash_foldGetByInput (l : List COutPoint) (st : DBState) :
    (l.foldl (fun s i => (s.getByInput i).2) st).islockByHash = st.islockByHash := by
  induction l generalizing st with
  | nil => rfl
  | cons o rest ih => rw [List.foldl_cons, ih, islockByHash_getByInput]

theorem processIS_islockByHash (env : ChainEnv) (st : DBState) (hash : Nat)
    (islock : CInstantSendLock) :
    (processInstantSendLock env st hash islock).islockByHash = st.islockByHash ∨
    (processInstantSendLock env st hash islock).islockByHash =
      alInsert st.islockByHash hash islock := by
  unfold processInstantSendLock
  rcases hget : st.getByHash hash true with ⟨known, st1⟩
  have hst1 : st1.islockByHash = st.islockByHash := by
    have h := islockByHash_getByHash st hash true
    rw [hget] at h
    exact h
  simp only [hget]
  split
  · exact Or.inl hst1
  · cases hm : env.txMinedHeight islock.txid
    · simp only [hm]
      right
      show (alInsert (List.foldl (fun s i => (s.getByInput i).2)
        (st1.getByTxid islock.txid).2 islock.inputs).islockByHash hash islock) =
        alInsert st.islockByHash hash islock
      rw [islockByHash_foldGetByInput, islockByHash_getByTxid, hst1]
    · simp only [hm]
      split
      · exact Or.inl hst1
      · right
        show (alInsert (List.foldl (fun s i => (s.getByInput i).2)
          (st1.getByTxid islock.txid).2 islock.inputs).islockByHash hash islock) =
          alInsert st.islockByHash hash islock
        rw [islockByHash_foldGetByInput, islockByHash_getByTxid, hst1]

theorem StoreInv_of_sub (st st' : DBState)
    (hsub : ∀ h, alLookup st'.islockByHash h = none ∨
      alLookup st'.islockByHash h = alLookup st.islockByHash h)
    (hinv : StoreInv st) : StoreInv st' := by
  intro h1 h2 l1 l2 hne hl1 hl2
  rcases hsub h1 with hs1 | hs1
  · rw [hs1] at hl1; cases hl1
  · rcases hsub h2 with hs2 | hs2
    · rw [hs2] at hl2; cases hl2
    · rw [hs1] at hl1
      rw [hs2] at hl2
      exact hinv h1 h2 l1 l2 hne hl1 hl2

theorem storeInv_map_insert (m : List (Nat × CInstantSendLock)) (hash : Nat)
    (islock : CInstantSendLock)
    (hinv : ∀ h1 h2 l1 l2, h1 ≠ h2 → alLookup m h1 = some l1 → alLookup m h2 = some l2 →
      l1.txid ≠ l2.txid ∧ ∀ o ∈ l1.inputs, o ∉ l2.inputs)
    (hfresh : ∀ h l, alLookup m h = some l →
      islock.txid ≠ l.txid ∧ ∀ o ∈ islock.inputs, o ∉ l.inputs) :
    ∀ h1 h2 l1 l2, h1 ≠ h2 → alLookup (alInsert m hash islock) h1 = some l1 →
      alLookup (alInsert m hash islock) h2 = some l2 →
      l1.txid ≠ l2.txid ∧ ∀ o ∈ l1.inputs, o ∉ l2.inputs := by
  intro h1 h2 l1 l2 hne hl1 hl2
  rw [alLookup_alInsert] at hl1 hl2
  by_cases e1 : hash = h1
  · rw [if_pos e1] at hl1
    injection hl1 with hl1
    subst hl1
    have e2 : ¬ hash = h2 := fun hh => hne ((e1.symm.trans hh))
    rw [if_neg e2] at hl2
    exact hfresh h2 l2 hl2
  · rw [if_neg e1] at hl1
    by_cases e2 : hash = h2
    · rw [if_pos e2] at hl2
      injection hl2 with hl2
      subst hl2
      rcases hfresh h1 l1 hl1 with ⟨ht, hd⟩
      refine ⟨fun hh => ht hh.symm, ?_⟩
      intro o ho1 ho2
      exact hd o ho2 ho1
    · rw [if_neg e2] at hl2
      exact hinv h1 h2 l1 l2 hne hl1 hl2

theorem StoreInv_writeNew (st : DBState) (hash : Nat) (islock : CInstantSendLock)
    (hinv : StoreInv st) (hfresh : commitFresh st islock) :
    StoreInv (st.writeNew hash islock) := by
  intro h1 h2 l1 l2 hne hl1 hl2
  exact storeInv_map_insert st.islockByHash hash islock hinv hfresh h1 h2 l1 l2 hne hl1 hl2

theorem StoreInv_applyOp (env : ChainEnv) (st : DBState) (op : DBOp)
    (hinv : StoreInv st) (hop : OpFresh st op) : StoreInv (applyOp env st op) := by
  cases op with
  | writeNew h l => exact StoreInv_writeNew st h l hinv hop
  | writeMined h n => exact StoreInv_of_sub st _ (fun _ => Or.inr rfl) hinv
  | removeMined h n => exact StoreInv_of_sub st _ (fun _ => Or.inr rfl) hinv
  | removeConfirmed n =>
      exact StoreInv_of_sub st _ (removeConfirmed_islockByHash_sub st n) hinv
  | removeArchived n =>
      exact StoreInv_of_sub st _
        (fun h => Or.inr (by rw [show (applyOp env st (.removeArchived n)).islockByHash =
          (st.removeArchived n).islockByHash from rfl, removeArchived_islockByHash])) hinv
  | removeChained h t n =>
      exact StoreInv_of_sub st _ (removeChained_islockByHash_sub st h t n) hinv
  | processIS h l =>
      rcases processIS_islockByHash env st h l with heq | heq
      · exact StoreInv_of_sub st _ (fun h' => Or.inr (by
          rw [show (applyOp env st (.processIS h l)).islockByHash =
            (processInstantSendLock env st h l).islockByHash from rfl, heq])) hinv
      · intro h1 h2 l1 l2 hne hl1 hl2
        rw [show (applyOp env st (.processIS h l)).islockByHash =
          (processInstantSendLock env st h l).islockByHash from rfl, heq] at hl1 hl2
        exact storeInv_map_insert st.islockByHash h l hinv hop h1 h2 l1 l2 hne hl1 hl2

/-- C1 counterexample: committing (via `ProcessInstantSendLock`) a
peer-delivered lock whose single input collides with an already committed
lock leaves both locks simultaneously present in the primary index with
intersecting input sets — the claimed invariant fails. -/
theorem claim_C1_counterexample :
    ¬ StoreInv (applyOps ⟨fun _ => false, fun _ => none, fun _ => false, 0, 0⟩
      DBState.empty
      [.writeNew 1 ⟨islock_version, 10, [⟨100, 0⟩], 0, []⟩,
       .processIS 2 ⟨islock_version, 11, [⟨100, 0⟩], 0, []⟩]) := by
  intro hinv
  rcases hinv 1 2 ⟨islock_version, 10, [⟨100, 0⟩], 0, []⟩
      ⟨islock_version, 11, [⟨100, 0⟩], 0, []⟩ (by decide) (by decide) (by decide) with
    ⟨-, hdisj⟩
  exact hdisj ⟨100, 0⟩ (by decide) (by decide)

/-- C1 amended: the exclusivity invariant (pairwise distinct txids and
disjoint input sets across the primary index) is preserved by every sequence
of database operations in which each committed lock is fresh — its txid
distinct from and its inputs disjoint from every lock then committed.
`ProcessInstantSendLock` itself does not enforce this freshness: it logs
colliding txids and inputs and commits regardless (see the counterexample). -/
theorem claim_C1_amended_store_exclusivity (env : ChainEnv) :
    ∀ (ops : List DBOp) (st : DBState), StoreInv st → FreshRun env st ops →
      StoreInv (applyOps env st ops) := by
  intro ops
  induction ops with
  | nil => intro st hinv _; exact hinv
  | cons op rest ih =>
      intro st hinv hrun
      obtain ⟨hop, hrest⟩ := hrun
      exact ih (applyOp env st op) (StoreInv_applyOp env st op hinv hop) hrest

/-- Witness for the amended C1: a fresh two-commit run from the empty store
keeps the invariant. -/
theorem claim_C1_witness :
    StoreInv (applyOps ⟨fun _ => false, fun _ => none, fun _ => false, 0, 0⟩
      DBState.empty
      [.writeNew 1 ⟨islock_version, 10, [⟨100, 0⟩], 0, []⟩,
       .processIS 2 ⟨islock_version, 11, [⟨101, 0⟩], 0, []⟩]) := by
  apply claim_C1_amended_store_exclusivity
  · intro h1 h2 l1 l2 hne hl1 hl2
    cases hl1
  · refine ⟨?_, ?_, trivial⟩
    · intro h l hl
      cases hl
    · intro h l hl
      have : alLookup (DBState.empty.writeNew 1
          ⟨islock_version, 10, [⟨100, 0⟩], 0, []⟩).islockByHash h = some l := hl
      rw [show (DBState.empty.writeNew 1
          ⟨islock_version, 10, [⟨100, 0⟩], 0, []⟩).islockByHash =
          [(1, ⟨islock_version, 10, [⟨100, 0⟩], 0, []⟩)] from rfl] at this
      rw [alLookup_cons] at this
      by_cases h1 : 1 = h
      · rw [if_pos h1] at this
        injection this with this
        subst this
        exact ⟨by decide, by decide⟩
      · rw [if_neg h1] at this
        cases this

theorem c3_state_eq (hash : Nat) (L : CInstantSendLock) (h : Int)
    (hh : hash ≠ 0) (hpos : 0 < h) :
    (((DBState.empty.writeNew hash L).writeMined hash h).removeConfirmed h).2 =
      ⟨[], [],
       L.inputs.foldl (fun m i => alErase m i) (L.inputs.foldl (fun m i => alInsert m i hash) []),
       [], [(h, hash)], [hash], [(hash, some L)], [(L.txid, hash)],
       L.inputs.foldl (fun m i => alInsert m i hash) [], h⟩ := by
  unfold DBState.removeConfirmed
  rw [if_neg (by simp [DBState.writeMined, DBState.writeNew, DBState.empty]; omega)]
  simp only [DBState.writeMined, DBState.writeNew, DBState.empty, ksInsert]
  simp [removeConfirmedStep, DBState.dbReadIslock, hh, alLookup_cons, alInsert, alErase,
    DBState.eraseLockPrimary, DBState.archive, DBState.removeMined, ksInsert, ksErase]

/-- C3 counterexample: after `WriteNewInstantSendLock`, `WriteInstantSendLockMined`
at height 3, and `RemoveConfirmedInstantSendLocks(3)`, the (default, cached)
`GetInstantSendLockByHash` lookup still returns the lock — not "no lock" — because
`RemoveConfirmedInstantSendLocks` removes via `RemoveInstantSendLock` with the
cache kept. -/
theorem claim_C3_counterexample :
    (((((DBState.empty.writeNew 5 ⟨islock_version, 7, [⟨50, 0⟩], 0, []⟩).writeMined 5 3
        ).removeConfirmed 3).2).getByHash 5 true).1 =
      some ⟨islock_version, 7, [⟨50, 0⟩], 0, []⟩ ∧
    (((((DBState.empty.writeNew 5 ⟨islock_version, 7, [⟨50, 0⟩], 0, []⟩).writeMined 5 3
        ).removeConfirmed 3).2).getByHash 5 true).1 ≠ none :=
  ⟨by decide, by decide⟩

/-- C3 amended: after `WriteNewInstantSendLock(hash, L)`,
`WriteInstantSendLockMined(hash, h)` with `h > bestConfirmedHeight`, and
`RemoveConfirmedInstantSendLocks(h)`, the persistent `is_i` entry is gone (a
cache-bypassing lookup returns no lock), while the default cached
`GetInstantSendLockByHash(hash)` still returns the lock (the cache is kept),
and `KnownInstantSendLock(hash)` stays true, also after any
`RemoveArchivedInstantSendLocks` that has not reached the archival height. -/
theorem claim_C3_amended_confirmed_lifecycle (hash : Nat) (L : CInstantSendLock)
    (h h' : Int) (hh : hash ≠ 0) (hpos : 0 < h) (hlt : h' < h) :
    alLookup ((((DBState.empty.writeNew hash L).writeMined hash h
        ).removeConfirmed h).2).islockByHash hash = none ∧
    (((((DBState.empty.writeNew hash L).writeMined hash h
        ).removeConfirmed h).2).getByHash hash false).1 = none ∧
    (((((DBState.empty.writeNew hash L).writeMined hash h
        ).removeConfirmed h).2).getByHash hash true).1 = some L ∧
    ((((DBState.empty.writeNew hash L).writeMined hash h
        ).removeConfirmed h).2).Known hash = true ∧
    (((((DBState.empty.writeNew hash L).writeMined hash h
        ).removeConfirmed h).2).removeArchived h').Known hash = true := by
  rw [c3_state_eq hash L h hh hpos]
  refine ⟨rfl, ?_, ?_, ?_, ?_⟩
  · simp [DBState.getByHash, hh, alLookup]
  · simp [DBState.getByHash, hh, alLookup_cons]
  · simp [DBState.Known, DBState.getByHash, hh, alLookup_cons]
  · unfold DBState.removeArchived
    split
    · simp [DBState.Known, DBState.getByHash, hh, alLookup_cons]
    · have hne : ¬ (h ≤ h') := by omega
      simp [hne, DBState.Known, DBState.getByHash, hh, alLookup_cons]

/-- Witness for the amended C3: the persistent entry is gone at a concrete
instance of the sequence. -/
theorem claim_C3_witness :
    alLookup ((((DBState.empty.writeNew 5 ⟨islock_version, 7, [⟨50, 0⟩], 0, []⟩
        ).writeMined 5 3).removeConfirmed 3).2).islockByHash 5 = none :=
  (claim_C3_amended_confirmed_lifecycle 5 ⟨islock_version, 7, [⟨50, 0⟩], 0, []⟩ 3 2
    (by decide) (by decide) (by decide)).1

theorem alLookup_mem {α β : Type} [DecidableEq α] {m : List (α × β)} {k : α} {v : β}
    (h : alLookup m k = some v) : (k, v) ∈ m := by
  induction m with
  | nil => cases h
  | cons p rest ih =>
      rcases p with ⟨a, b⟩
      rw [alLookup_cons] at h
      by_cases hak : a = k
      · rw [if_pos hak] at h
        injection h with h
        subst hak
        subst h
        exact List.mem_cons_self _ _
      · rw [if_neg hak] at h
        exact List.mem_cons_of_mem _ (ih h)

theorem dbRead_txid_mem (st : DBState) {h : Nat} {l : CInstantSendLock}
    (hr : st.dbReadIslock h = some l) :
    l.txid ∈ (st.islockByHash.map (fun e => e.2.txid)).toFinset := by
  unfold DBState.dbReadIslock at hr
  split at hr
  · cases hr
  · have hm := alLookup_mem hr
    rw [List.mem_toFinset, List.mem_map]
    exact ⟨(h, l), hm, rfl⟩

theorem chainVisit_foldl_spec (st : DBState) (children : List Nat) :
    ∀ (added stack : List Nat) (res : List (Nat × Option CInstantSendLock)),
      ∃ (P : List Nat) (S : List (Nat × Option CInstantSendLock)),
        (children.foldl (chainVisit st) (added, stack, res)).1 = P ++ added ∧
        (children.foldl (chainVisit st) (added, stack, res)).2.1 = P ++ stack ∧
        (children.foldl (chainVisit st) (added, stack, res)).2.2 = res ++ S ∧
        P.Nodup ∧
        (∀ p ∈ P, p ∉ added ∧
          ∃ h l, h ∈ children ∧ st.dbReadIslock h = some l ∧ l.txid = p) ∧
        (∀ q ∈ S, q.1 ∈ children ∧ q.2 = st.dbReadIslock q.1) ∧
        (∀ h l, h ∈ children → st.dbReadIslock h = some l →
          (h, some l) ∈ res ++ S ∧ l.txid ∈ P ++ added) := by
  induction children with
  | nil =>
      intro added stack res
      exact ⟨[], [], rfl, rfl, by simp, List.nodup_nil, by simp, by simp, by simp⟩
  | cons c cs ih =>
      intro added stack res
      cases hr : st.dbReadIslock c with
      | none =>
          have hstep : chainVisit st (added, stack, res) c =
              (added, stack, res ++ [(c, none)]) := by
            simp [chainVisit, hr]
          rw [List.foldl_cons, hstep]
          obtain ⟨P, S, h1, h2, h3, h4, h5, h6, h7⟩ := ih added stack (res ++ [(c, none)])
          refine ⟨P, (c, none) :: S, h1, h2, ?_, h4, ?_, ?_, ?_⟩
          · rw [h3, List.append_assoc]
            rfl
          · intro p hp
            obtain ⟨hna, ch, lk, hch, hrk, htx⟩ := h5 p hp
            exact ⟨hna, ch, lk, List.mem_cons_of_mem _ hch, hrk, htx⟩
          · intro q hq
            rcases List.mem_cons.mp hq with rfl | hqS
            · exact ⟨List.mem_cons_self _ _, hr.symm⟩
            · obtain ⟨hch, hread⟩ := h6 q hqS
              exact ⟨List.mem_cons_of_mem _ hch, hread⟩
          · intro h l hch hrl
            rcases List.mem_cons.mp hch with rfl | hcs
            · rw [hr] at hrl
              cases hrl
            · obtain ⟨hm, ht⟩ := h7 h l hcs hrl
              rw [List.append_assoc] at hm
              exact ⟨hm, ht⟩
      | some l0 =>
          by_cases hmemadd : l0.txid ∈ added
          · have hstep : chainVisit st (added, stack, res) c =
                (added, stack, res ++ [(c, some l0)]) := by
              simp [chainVisit, hr, hmemadd]
            rw [List.foldl_cons, hstep]
            obtain ⟨P, S, h1, h2, h3, h4, h5, h6, h7⟩ := ih added stack (res ++ [(c, some l0)])
            refine ⟨P, (c, some l0) :: S, h1, h2, ?_, h4, ?_, ?_, ?_⟩
            · rw [h3, List.append_assoc]
              rfl
            · intro p hp
              obtain ⟨hna, ch, lk, hch, hrk, htx⟩ := h5 p hp
              exact ⟨hna, ch, lk, List.mem_cons_of_mem _ hch, hrk, htx⟩
            · intro q hq
              rcases List.mem_cons.mp hq with rfl | hqS
              · exact ⟨List.mem_cons_self _ _, hr.symm⟩
              · obtain ⟨hch, hread⟩ := h6 q hqS
                exact ⟨List.mem_cons_of_mem _ hch, hread⟩
            · intro h l hch hrl
              rcases List.mem_cons.mp hch with rfl | hcs
              · rw [hr] at hrl
                injection hrl with hrl
                subst hrl
                exact ⟨List.mem_append_right _ (List.mem_cons_self _ _),
                  List.mem_append_right _ hmemadd⟩
              · obtain ⟨hm, ht⟩ := h7 h l hcs hrl
                rw [List.append_assoc] at hm
                exact ⟨hm, ht⟩
          · have hstep : chainVisit st (added, stack, res) c =
                (l0.txid :: added, l0.txid :: stack, res ++ [(c, some l0)]) := by
              simp [chainVisit, hr, hmemadd]
            rw [List.foldl_cons, hstep]
            obtain ⟨P, S, h1, h2, h3, h4, h5, h6, h7⟩ :=
              ih (l0.txid :: added) (l0.txid :: stack) (res ++ [(c, some l0)])
            refine ⟨P ++ [l0.txid], (c, some l0) :: S, ?_, ?_, ?_, ?_, ?_, ?_, ?_⟩
            · rw [h1, ← List.append_cons]
            · rw [h2, ← List.append_cons]
            · rw [h3, List.append_assoc]
              rfl
            · rw [List.nodup_append]
              refine ⟨h4, List.nodup_singleton _, ?_⟩
              intro p hp hpx
              rw [List.mem_singleton] at hpx
              subst hpx
              exact (h5 _ hp).1 (List.mem_cons_self _ _)
            · intro p hp
              rcases List.mem_append.mp hp with hpP | hpx
              · obtain ⟨hna, ch, lk, hch, hrk, htx⟩ := h5 p hpP
                exact ⟨fun hmem => hna (List.mem_cons_of_mem _ hmem),
                  ch, lk, List.mem_cons_of_mem _ hch, hrk, htx⟩
              · rw [List.mem_singleton] at hpx
                subst hpx
                exact ⟨hmemadd, c, l0, List.mem_cons_self _ _, hr, rfl⟩
            · intro q hq
              rcases List.mem_cons.mp hq with rfl | hqS
              · exact ⟨List.mem_cons_self _ _, hr.symm⟩
              · obtain ⟨hch, hread⟩ := h6 q hqS
                exact ⟨List.mem_cons_of_mem _ hch, hread⟩
            · intro h l hch hrl
              rcases List.mem_cons.mp hch with rfl | hcs
              · rw [hr] at hrl
                injection hrl with hrl
                subst hrl
                constructor
                · exact List.mem_append_right _ (List.mem_cons_self _ _)
                · rw [← List.append_cons]
                  exact List.mem_append_right _ (List.mem_cons_self _ _)
              · obtain ⟨hm, ht⟩ := h7 h l hcs hrl
                rw [List.append_assoc] at hm
                rw [← List.append_cons]
                exact ⟨hm, ht⟩

theorem chainWalk_sound (st : DBState) (root : Nat) :
    ∀ (fuel : Nat) (stack added : List Nat) (res : List (Nat × Option CInstantSendLock)),
      (∀ t ∈ stack, ReachTx st root t) →
      (∀ h l, (h, some l) ∈ res → ChainedLock st root h l) →
      ∀ h l, (h, some l) ∈ (chainWalk st fuel stack added res).2.2 →
        ChainedLock st root h l := by
  intro fuel
  induction fuel with
  | zero => intro stack added res _ hr h l hmem; exact hr h l hmem
  | succ fuel ih =>
      intro stack added res hs hr h l hmem
      cases stack with
      | nil => exact hr h l hmem
      | cons t rest =>
          obtain ⟨P, S, h1, h2, h3, h4, h5, h6, h7⟩ :=
            chainVisit_foldl_spec st (GetInstantSendLocksByParent st t) added rest res
          rw [show chainWalk st (fuel + 1) (t :: rest) added res = chainWalk st fuel
              ((GetInstantSendLocksByParent st t).foldl (chainVisit st) (added, rest, res)).2.1
              ((GetInstantSendLocksByParent st t).foldl (chainVisit st) (added, rest, res)).1
              ((GetInstantSendLocksByParent st t).foldl (chainVisit st) (added, rest, res)).2.2
            from rfl] at hmem
          refine ih _ _ _ ?_ ?_ h l hmem
          · rw [h2]
            intro t' ht'
            rcases List.mem_append.mp ht' with hP | hrest
            · obtain ⟨-, ch, lk, hch, hrk, htx⟩ := h5 t' hP
              exact htx ▸ ReachTx.step (hs t (List.mem_cons_self _ _)) hch hrk
            · exact hs t' (List.mem_cons_of_mem _ hrest)
          · rw [h3]
            intro h' l' hmem'
            rcases List.mem_append.mp hmem' with hold | hS
            · exact hr h' l' hold
            · obtain ⟨hch, hread⟩ := h6 _ hS
              exact ⟨t, hs t (List.mem_cons_self _ _), hch, hread.symm⟩

theorem chainWalk_complete (st : DBState) (root : Nat) :
    ∀ (fuel : Nat) (stack added : List Nat) (res : List (Nat × Option CInstantSendLock)),
      stack.length +
        ((st.islockByHash.map (fun e => e.2.txid)).toFinset \ added.toFinset).card ≤ fuel →
      (∀ t, (t = root ∨ t ∈ added) → t ∈ stack ∨
        (∀ h l, h ∈ GetInstantSendLocksByParent st t → st.dbReadIslock h = some l →
          ((h, some l) ∈ res ∧ l.txid ∈ added))) →
      ∀ t, (t = root ∨ t ∈ (chainWalk st fuel stack added res).2.1) →
        ∀ h l, h ∈ GetInstantSendLocksByParent st t → st.dbReadIslock h = some l →
          ((h, some l) ∈ (chainWalk st fuel stack added res).2.2 ∧
            l.txid ∈ (chainWalk st fuel stack added res).2.1) := by
  intro fuel
  induction fuel with
  | zero =>
      intro stack added res hfuel hinv t ht
      have hstack : stack = [] := List.length_eq_zero.mp (by omega)
      subst hstack
      rcases hinv t ht with hmem | hdone
      · cases hmem
      · exact hdone
  | succ fuel ih =>
      intro stack added res hfuel hinv
      cases stack with
      | nil =>
          intro t ht
          rcases hinv t ht with hmem | hdone
          · cases hmem
          · exact hdone
      | cons t0 rest =>
          obtain ⟨P, S, h1, h2, h3, h4, h5, h6, h7⟩ :=
            chainVisit_foldl_spec st (GetInstantSendLocksByParent st t0) added rest res
          have walkEq : chainWalk st (fuel + 1) (t0 :: rest) added res = chainWalk st fuel
              ((GetInstantSendLocksByParent st t0).foldl (chainVisit st) (added, rest, res)).2.1
              ((GetInstantSendLocksByParent st t0).foldl (chainVisit st) (added, rest, res)).1
              ((GetInstantSendLocksByParent st t0).foldl (chainVisit st)
                (added, rest, res)).2.2 := rfl
          rw [walkEq]
          have hPsub : P.toFinset ⊆
              (st.islockByHash.map (fun e => e.2.txid)).toFinset \ added.toFinset := by
            intro p hp
            rw [List.mem_toFinset] at hp
            obtain ⟨hna, ch, lk, hch, hrk, htx⟩ := h5 p hp
            rw [Finset.mem_sdiff]
            refine ⟨htx ▸ dbRead_txid_mem st hrk, ?_⟩
            rw [List.mem_toFinset]
            exact hna
          have hPcard : P.toFinset.card = P.length := List.toFinset_card_of_nodup h4
          have hsd : ((st.islockByHash.map (fun e => e.2.txid)).toFinset \
              (P ++ added).toFinset) =
              (((st.islockByHash.map (fun e => e.2.txid)).toFinset \ added.toFinset) \
                P.toFinset) := by
            ext x
            simp only [Finset.mem_sdiff, List.toFinset_append, Finset.mem_union]
            tauto
          have hcard : (((st.islockByHash.map (fun e => e.2.txid)).toFinset \
              added.toFinset) \ P.toFinset).card =
              ((st.islockByHash.map (fun e => e.2.txid)).toFinset \
                added.toFinset).card - P.length := by
            rw [Finset.card_sdiff hPsub, hPcard]
          have hPle : P.length ≤ ((st.islockByHash.map (fun e => e.2.txid)).toFinset \
              added.toFinset).card := by
            rw [← hPcard]
            exact Finset.card_le_card hPsub
          have hdone_of_old : ∀ t, (t = root ∨ t ∈ added) →
              t ∈ ((GetInstantSendLocksByParent st t0).foldl (chainVisit st)
                (added, rest, res)).2.1 ∨
              (∀ h l, h ∈ GetInstantSendLocksByParent st t → st.dbReadIslock h = some l →
                ((h, some l) ∈ ((GetInstantSendLocksByParent st t0).foldl (chainVisit st)
                    (added, rest, res)).2.2 ∧
                  l.txid ∈ ((GetInstantSendLocksByParent st t0).foldl (chainVisit st)
                    (added, rest, res)).1)) := by
            intro t ht
            rcases hinv t ht with hstk | hdone
            · rcases List.mem_cons.mp hstk with heq | hrest
              · right
                intro h l hch hrl
                subst heq
                obtain ⟨hm, ht2⟩ := h7 h l hch hrl
                rw [h3, h1]
                exact ⟨hm, ht2⟩
              · left
                rw [h2]
                exact List.mem_append_right _ hrest
            · right
              intro h l hch hrl
              obtain ⟨hm, ht2⟩ := hdone h l hch hrl
              rw [h3, h1]
              exact ⟨List.mem_append_left _ hm, List.mem_append_right _ ht2⟩
          refine ih _ _ _ ?_ ?_
          · rw [h2, h1, hsd, hcard, List.length_append]
            simp only [List.length_cons] at hfuel
            omega
          · intro t ht
            rcases ht with rfl | hstep1
            · exact hdone_of_old t (Or.inl rfl)
            · rw [h1] at hstep1
              rcases List.mem_append.mp hstep1 with hP | hadd
              · left
                rw [h2]
                exact List.mem_append_left _ hP
              · exact hdone_of_old t (Or.inr hadd)

theorem mem_ksInsert_self {α : Type} [DecidableEq α] (s : List α) (k : α) :
    k ∈ ksInsert s k := by
  unfold ksInsert
  split
  · assumption
  · exact List.mem_cons_self _ _

theorem mem_ksInsert_of_mem {α : Type} [DecidableEq α] {s : List α} {x : α} (k : α)
    (hx : x ∈ s) : x ∈ ksInsert s k := by
  unfold ksInsert
  split
  · exact hx
  · exact List.mem_cons_of_mem _ hx

theorem removeChained_fold1_sub (nHeight : Int) :
    ∀ (l : List (Nat × CInstantSendLock)) (s : DBState) (h : Nat),
      alLookup ((l.foldl (fun s hl =>
        ((s.eraseLockPrimary hl.1 hl.2).eraseLockCaches hl.1 hl.2).archive hl.1 nHeight)
        s)).islockByHash h = none ∨
      alLookup ((l.foldl (fun s hl =>
        ((s.eraseLockPrimary hl.1 hl.2).eraseLockCaches hl.1 hl.2).archive hl.1 nHeight)
        s)).islockByHash h = alLookup s.islockByHash h := by
  intro l
  induction l with
  | nil => intro s h; exact Or.inr rfl
  | cons e rest ih =>
      intro s h
      rw [List.foldl_cons]
      rcases ih (((s.eraseLockPrimary e.1 e.2).eraseLockCaches e.1 e.2).archive e.1 nHeight) h
        with hnone | heq
      · exact Or.inl hnone
      · rw [heq, show ((((s.eraseLockPrimary e.1 e.2).eraseLockCaches e.1 e.2).archive e.1
          nHeight)).islockByHash = alErase s.islockByHash e.1 from rfl, alLookup_alErase]
        by_cases hk : e.1 = h
        · exact Or.inl (if_pos hk)
        · exact Or.inr (if_neg hk)

theorem removeChained_fold1_none (nHeight : Int) :
    ∀ (l : List (Nat × CInstantSendLock)) (s : DBState) (h : Nat),
      (∃ lk, (h, lk) ∈ l) →
      alLookup ((l.foldl (fun s hl =>
        ((s.eraseLockPrimary hl.1 hl.2).eraseLockCaches hl.1 hl.2).archive hl.1 nHeight)
        s)).islockByHash h = none := by
  intro l
  induction l with
  | nil =>
      rintro s h ⟨lk, hlk⟩
      cases hlk
  | cons e rest ih =>
      rintro s h ⟨lk, hlk⟩
      rw [List.foldl_cons]
      rcases List.mem_cons.mp hlk with heq | hrest
      · have hmid : alLookup (((s.eraseLockPrimary e.1 e.2).eraseLockCaches e.1 e.2).archive
            e.1 nHeight).islockByHash h = none := by
          rw [show (((s.eraseLockPrimary e.1 e.2).eraseLockCaches e.1 e.2).archive e.1
            nHeight).islockByHash = alErase s.islockByHash e.1 from rfl, alLookup_alErase]
          rw [show e.1 = h from congrArg Prod.fst heq.symm]
          exact if_pos rfl
        rcases removeChained_fold1_sub nHeight rest
            (((s.eraseLockPrimary e.1 e.2).eraseLockCaches e.1 e.2).archive e.1 nHeight) h
          with hnone | heqq
        · exact hnone
        · rw [heqq, hmid]
      · exact ih _ h ⟨lk, hrest⟩

theorem removeChained_fold1_archived (nHeight : Int) :
    ∀ (l : List (Nat × CInstantSendLock)) (s : DBState),
      (∀ x ∈ s.archivedByHeight, x ∈ ((l.foldl (fun s hl =>
        ((s.eraseLockPrimary hl.1 hl.2).eraseLockCaches hl.1 hl.2).archive hl.1 nHeight)
        s)).archivedByHeight) ∧
      (∀ x ∈ s.archivedByHash, x ∈ ((l.foldl (fun s hl =>
        ((s.eraseLockPrimary hl.1 hl.2).eraseLockCaches hl.1 hl.2).archive hl.1 nHeight)
        s)).archivedByHash) ∧
      (∀ e ∈ l, (nHeight, e.1) ∈ ((l.foldl (fun s hl =>
        ((s.eraseLockPrimary hl.1 hl.2).eraseLockCaches hl.1 hl.2).archive hl.1 nHeight)
        s)).archivedByHeight ∧
        e.1 ∈ ((l.foldl (fun s hl =>
          ((s.eraseLockPrimary hl.1 hl.2).eraseLockCaches hl.1 hl.2).archive hl.1 nHeight)
          s)).archivedByHash) := by
  intro l
  induction l with
  | nil =>
      intro s
      refine ⟨fun x hx => hx, fun x hx => hx, ?_⟩
      intro e he
      cases he
  | cons e0 rest ih =>
      intro s
      rw [List.foldl_cons]
      obtain ⟨ihh, ihha, ihe⟩ :=
        ih (((s.eraseLockPrimary e0.1 e0.2).eraseLockCaches e0.1 e0.2).archive e0.1 nHeight)
      have hstepH : ∀ x ∈ s.archivedByHeight,
          x ∈ (((s.eraseLockPrimary e0.1 e0.2).eraseLockCaches e0.1 e0.2).archive e0.1
            nHeight).archivedByHeight :=
        fun x hx => mem_ksInsert_of_mem _ hx
      have hstepA : ∀ x ∈ s.archivedByHash,
          x ∈ (((s.eraseLockPrimary e0.1 e0.2).eraseLockCaches e0.1 e0.2).archive e0.1
            nHeight).archivedByHash :=
        fun x hx => mem_ksInsert_of_mem _ hx
      refine ⟨fun x hx => ihh x (hstepH x hx), fun x hx => ihha x (hstepA x hx), ?_⟩
      intro e he
      rcases List.mem_cons.mp he with heq | hrest
      · subst heq
        exact ⟨ihh _ (mem_ksInsert_self _ _), ihha _ (mem_ksInsert_self _ _)⟩
      · exact ihe e hrest

theorem removeChained_fold2_fields :
    ∀ (l : List Nat) (s : DBState),
      ((l.foldl (fun s h =>
        if h = 0 then s else { s with islockCache := alInsert s.islockCache h none })
        s)).islockByHash = s.islockByHash ∧
      ((l.foldl (fun s h =>
        if h = 0 then s else { s with islockCache := alInsert s.islockCache h none })
        s)).archivedByHeight = s.archivedByHeight ∧
      ((l.foldl (fun s h =>
        if h = 0 then s else { s with islockCache := alInsert s.islockCache h none })
        s)).archivedByHash = s.archivedByHash := by
  intro l
  induction l with
  | nil => intro s; exact ⟨rfl, rfl, rfl⟩
  | cons e rest ih =>
      intro s
      rw [List.foldl_cons]
      obtain ⟨ih1, ih2, ih3⟩ := ih (if e = 0 then s
        else { s with islockCache := alInsert s.islockCache e none })
      refine ⟨ih1.trans ?_, ih2.trans ?_, ih3.trans ?_⟩ <;> split <;> rfl

theorem chainWalk_processed_char (st : DBState) (root : Nat) (h : Nat)
    (l : CInstantSendLock) :
    (h, some l) ∈ (chainWalk st (st.islockByHash.length + 1) [root] [] []).2.2 ↔
      ChainedLock st root h l := by
  have hfuel : ([root] : List Nat).length +
      ((st.islockByHash.map (fun e => e.2.txid)).toFinset \
        ([] : List Nat).toFinset).card ≤ st.islockByHash.length + 1 := by
    have hle := List.toFinset_card_le (st.islockByHash.map (fun e => e.2.txid))
    rw [List.length_map] at hle
    simp only [List.length_singleton, List.toFinset_nil, Finset.sdiff_empty]
    omega
  have hinv0 : ∀ t, (t = root ∨ t ∈ ([] : List Nat)) → t ∈ [root] ∨
      (∀ h l, h ∈ GetInstantSendLocksByParent st t → st.dbReadIslock h = some l →
        ((h, some l) ∈ ([] : List (Nat × Option CInstantSendLock)) ∧
          l.txid ∈ ([] : List Nat))) := by
    intro t ht
    rcases ht with rfl | hmem
    · exact Or.inl (List.mem_singleton.mpr rfl)
    · cases hmem
  have hfinal := chainWalk_complete st root (st.islockByHash.length + 1) [root] [] []
    hfuel hinv0
  have hclosed : ∀ t, ReachTx st root t →
      t = root ∨ t ∈ (chainWalk st (st.islockByHash.length + 1) [root] [] []).2.1 := by
    intro t hreach
    induction hreach with
    | refl => exact Or.inl rfl
    | step hre hch hrk ihc => exact Or.inr (hfinal _ ihc _ _ hch hrk).2
  constructor
  · intro hmem
    refine chainWalk_sound st root (st.islockByHash.length + 1) [root] [] [] ?_ ?_ h l hmem
    · intro t ht
      rcases List.mem_singleton.mp ht with rfl
      exact ReachTx.refl
    · intro h' l' hmem'
      cases hmem'
  · rintro ⟨t, hreach, hch, hrk⟩
    exact (hfinal t (hclosed t hreach) h l hch hrk).1

theorem removeChained_result_mem (st : DBState) (islockHash txid : Nat) (nHeight : Int)
    (h : Nat) :
    h ∈ (st.removeChained islockHash txid nHeight).1 ↔
      (h = islockHash ∨ ∃ l, ChainedLock st txid h l) := by
  have hres : (st.removeChained islockHash txid nHeight).1 =
      ((chainWalk st (st.islockByHash.length + 1) [txid] [] []).2.2.filterMap
        (fun p => p.2.map (fun l => (p.1, l)))).map (fun p => p.1) ++ [islockHash] := rfl
  rw [hres]
  constructor
  · intro hmem
    rcases List.mem_append.mp hmem with hrem | hroot
    · right
      rw [List.mem_map] at hrem
      obtain ⟨q, hq, hq1⟩ := hrem
      rw [List.mem_filterMap] at hq
      obtain ⟨p, hp, hf⟩ := hq
      obtain ⟨p1, p2⟩ := p
      cases p2 with
      | none => cases hf
      | some l =>
          simp only [Option.map_some'] at hf
          injection hf with hf
          subst hf
          subst hq1
          exact ⟨l, (chainWalk_processed_char st txid p1 l).mp hp⟩
    · exact Or.inl (List.mem_singleton.mp hroot)
  · intro hc
    rcases hc with rfl | ⟨l, hcl⟩
    · exact List.mem_append_right _ (List.mem_singleton.mpr rfl)
    · refine List.mem_append_left _ ?_
      rw [List.mem_map]
      refine ⟨(h, l), ?_, rfl⟩
      rw [List.mem_filterMap]
      exact ⟨(h, some l), (chainWalk_processed_char st txid h l).mpr hcl, rfl⟩

theorem removeChained_removes (st : DBState) (islockHash txid : Nat) (nHeight : Int)
    (hh : islockHash ≠ 0) :
    ∀ h ∈ (st.removeChained islockHash txid nHeight).1,
      alLookup ((st.removeChained islockHash txid nHeight).2).islockByHash h = none := by
  intro h hmem
  have hres : (st.removeChained islockHash txid nHeight).1 =
      ((chainWalk st (st.islockByHash.length + 1) [txid] [] []).2.2.filterMap
        (fun p => p.2.map (fun l => (p.1, l)))).map (fun p => p.1) ++ [islockHash] := rfl
  rw [hres] at hmem
  have hremNone : h ∈ ((chainWalk st (st.islockByHash.length + 1) [txid] [] []).2.2.filterMap
      (fun p => p.2.map (fun l => (p.1, l)))).map (fun p => p.1) →
      alLookup (((chainWalk st (st.islockByHash.length + 1) [txid] [] []).2.2.filterMap
        (fun p => p.2.map (fun l => (p.1, l)))).foldl
        (fun s hl =>
          ((s.eraseLockPrimary hl.1 hl.2).eraseLockCaches hl.1 hl.2).archive hl.1 nHeight)
        st).islockByHash h = none := by
    intro hrem
    rw [List.mem_map] at hrem
    obtain ⟨q, hq, hq1⟩ := hrem
    refine removeChained_fold1_none nHeight _ st h ⟨q.2, ?_⟩
    rw [← hq1]
    exact hq
  unfold DBState.removeChained
  cases hroot : st.dbReadIslock islockHash with
  | some rl =>
      simp only [hroot]
      rw [show ∀ (s : DBState),
          (((s.eraseLockPrimary islockHash rl).eraseLockCaches islockHash rl).archive
            islockHash nHeight).islockByHash = alErase s.islockByHash islockHash
          from fun _ => rfl]
      rw [alLookup_alErase]
      by_cases hk : islockHash = h
      · rw [if_pos hk]
      · rw [if_neg hk]
        rw [(removeChained_fold2_fields _ _).1]
        rcases List.mem_append.mp hmem with hrem | hroot2
        · exact hremNone hrem
        · exact absurd (List.mem_singleton.mp hroot2).symm hk
  | none =>
      simp only [hroot]
      show alLookup (List.foldl (fun (s : DBState) (h : Nat) =>
        if h = 0 then s
        else { s with islockCache := alInsert s.islockCache h none }) _ _).islockByHash
        h = none
      rw [(removeChained_fold2_fields _ _).1]
      rcases List.mem_append.mp hmem with hrem | hroot2
      · exact hremNone hrem
      · rw [List.mem_singleton.mp hroot2]
        have hst : alLookup st.islockByHash islockHash = none := by
          unfold DBState.dbReadIslock at hroot
          rw [if_neg hh] at hroot
          exact hroot
        rcases removeChained_fold1_sub nHeight
            ((chainWalk st (st.islockByHash.length + 1) [txid] [] []).2.2.filterMap
              (fun p => p.2.map (fun l => (p.1, l)))) st islockHash with hnone | heq
        · exact hnone
        · rw [heq, hst]

theorem removeChained_archives (st : DBState) (islockHash txid : Nat) (nHeight : Int) :
    ∀ h ∈ (st.removeChained islockHash txid nHeight).1,
      (nHeight, h) ∈ ((st.removeChained islockHash txid nHeight).2).archivedByHeight ∧
      h ∈ ((st.removeChained islockHash txid nHeight).2).archivedByHash := by
  intro h hmem
  have hres : (st.removeChained islockHash txid nHeight).1 =
      ((chainWalk st (st.islockByHash.length + 1) [txid] [] []).2.2.filterMap
        (fun p => p.2.map (fun l => (p.1, l)))).map (fun p => p.1) ++ [islockHash] := rfl
  rw [hres] at hmem
  have hXarch : h ∈ ((chainWalk st (st.islockByHash.length + 1) [txid] [] []).2.2.filterMap
      (fun p => p.2.map (fun l => (p.1, l)))).map (fun p => p.1) →
      (nHeight, h) ∈ ((((chainWalk st (st.islockByHash.length + 1) [txid] [] []).2.2.filter
        (fun p => p.2.isNone)).map (fun p => p.1)).foldl
        (fun s h => if h = 0 then s
          else { s with islockCache := alInsert s.islockCache h none })
        (((chainWalk st (st.islockByHash.length + 1) [txid] [] []).2.2.filterMap
          (fun p => p.2.map (fun l => (p.1, l)))).foldl
          (fun s hl =>
            ((s.eraseLockPrimary hl.1 hl.2).eraseLockCaches hl.1 hl.2).archive hl.1 nHeight)
          st)).archivedByHeight ∧
      h ∈ ((((chainWalk st (st.islockByHash.length + 1) [txid] [] []).2.2.filter
        (fun p => p.2.isNone)).map (fun p => p.1)).foldl
        (fun s h => if h = 0 then s
          else { s with islockCache := alInsert s.islockCache h none })
        (((chainWalk st (st.islockByHash.length + 1) [txid] [] []).2.2.filterMap
          (fun p => p.2.map (fun l => (p.1, l)))).foldl
          (fun s hl =>
            ((s.eraseLockPrimary hl.1 hl.2).eraseLockCaches hl.1 hl.2).archive hl.1 nHeight)
          st)).archivedByHash := by
    intro hrem
    rw [List.mem_map] at hrem
    obtain ⟨q, hq, hq1⟩ := hrem
    obtain ⟨hfh, hfa⟩ := (removeChained_fold1_archived nHeight _ st).2.2 q hq
    constructor
    · rw [(removeChained_fold2_fields _ _).2.1, ← hq1]
      exact hfh
    · rw [(removeChained_fold2_fields _ _).2.2, ← hq1]
      exact hfa
  unfold DBState.removeChained
  cases hroot : st.dbReadIslock islockHash with
  | some rl =>
      simp only [hroot]
      rcases List.mem_append.mp hmem with hrem | hroot2
      · obtain ⟨ha1, ha2⟩ := hXarch hrem
        exact ⟨mem_ksInsert_of_mem _ ha1, mem_ksInsert_of_mem _ ha2⟩
      · rw [List.mem_singleton.mp hroot2]
        exact ⟨mem_ksInsert_self _ _, mem_ksInsert_self _ _⟩
  | none =>
      simp only [hroot]
      rcases List.mem_append.mp hmem with hrem | hroot2
      · obtain ⟨ha1, ha2⟩ := hXarch hrem
        exact ⟨mem_ksInsert_of_mem _ ha1, mem_ksInsert_of_mem _ ha2⟩
      · rw [List.mem_singleton.mp hroot2]
        exact ⟨mem_ksInsert_self _ _, mem_ksInsert_self _ _⟩

/-- C9: `RemoveChainedInstantSendLocks(islockHash, txid, nHeight)` returns
exactly the hashes of the locks reachable from `txid` through the
spent-outpoint index (transitively through the txids of resolvable descendant
locks), with the root hash included; every returned hash is removed from the
primary `is_i` index and archived at `nHeight` in both archive key spaces. -/
theorem claim_C9_remove_chained (st : DBState) (islockHash txid : Nat) (nHeight : Int)
    (hh : islockHash ≠ 0) :
    (∀ h, h ∈ (st.removeChained islockHash txid nHeight).1 ↔
      (h = islockHash ∨ ∃ l, ChainedLock st txid h l)) ∧
    (∀ h ∈ (st.removeChained islockHash txid nHeight).1,
      alLookup ((st.removeChained islockHash txid nHeight).2).islockByHash h = none) ∧
    (∀ h ∈ (st.removeChained islockHash txid nHeight).1,
      (nHeight, h) ∈ ((st.removeChained islockHash txid nHeight).2).archivedByHeight ∧
      h ∈ ((st.removeChained islockHash txid nHeight).2).archivedByHash) ∧
    islockHash ∈ (st.removeChained islockHash txid nHeight).1 :=
  ⟨fun h => removeChained_result_mem st islockHash txid nHeight h,
   removeChained_removes st islockHash txid nHeight hh,
   removeChained_archives st islockHash txid nHeight,
   (removeChained_result_mem st islockHash txid nHeight islockHash).mpr (Or.inl rfl)⟩

/-- Witness for C9: removing a two-lock chain (a descendant lock spending an
output of the root lock's transaction) erases the descendant from the primary
index. -/
theorem claim_C9_witness :
    alLookup ((((DBState.empty.writeNew 10 ⟨islock_version, 100, [⟨50, 0⟩], 0, []⟩).writeNew
        20 ⟨islock_version, 200, [⟨100, 0⟩], 0, []⟩).removeChained 10 100
        7).2).islockByHash 20 = none :=
  (claim_C9_remove_chained
    ((DBState.empty.writeNew 10 ⟨islock_version, 100, [⟨50, 0⟩], 0, []⟩).writeNew
      20 ⟨islock_version, 200, [⟨100, 0⟩], 0, []⟩) 10 100 7 (by decide)).2.1 20 (by decide)

theorem parseLE_serLE (k : Nat) : ∀ (v : Nat) (rest : List Nat), v < 256 ^ k →
    parseLE k (serLE k v ++ rest) = some (v, rest) := by
  induction k with
  | zero =>
      intro v rest hv
      have hv0 : v = 0 := by simpa using hv
      subst hv0
      rfl
  | succ k ih =>
      intro v rest hv
      have hdiv : v / 256 < 256 ^ k := by
        rw [Nat.div_lt_iff_lt_mul (by norm_num : 0 < 256)]
        calc v < 256 ^ (k + 1) := hv
          _ = 256 ^ k * 256 := by rw [pow_succ]
      simp only [serLE, parseLE, List.cons_append, List.append_eq]
      rw [ih (v / 256) rest hdiv]
      show some (v / 256 * 256 + v % 256, rest) = some (v, rest)
      have hmod : v / 256 * 256 + v % 256 = v := by omega
      rw [hmod]

theorem parseCompactSize_ser (n : Nat) (rest : List Nat) (hn : n < 2 ^ 64) :
    parseCompactSize (serCompactSize n ++ rest) = some (n, rest) := by
  unfold serCompactSize
  by_cases h1 : n < 253
  · rw [if_pos h1]
    simp only [List.cons_append, List.nil_append, parseCompactSize, if_pos h1]
  · rw [if_neg h1]
    by_cases h2 : n ≤ 0xffff
    · rw [if_pos h2]
      have hp := parseLE_serLE 2 n rest (by norm_num; omega)
      simp [parseCompactSize, hp, h1]
    · rw [if_neg h2]
      by_cases h3 : n ≤ 0xffffffff
      · rw [if_pos h3]
        have hp := parseLE_serLE 4 n rest (by norm_num; omega)
        simp [parseCompactSize, hp]
        omega
      · rw [if_neg h3]
        have hp := parseLE_serLE 8 n rest (by norm_num at hn ⊢; omega)
        simp [parseCompactSize, hp]
        omega

theorem parseOutpoint_ser (o : COutPoint) (rest : List Nat)
    (h256 : o.hash < 2 ^ 256) (h32 : o.n < 2 ^ 32) :
    parseOutpoint (serOutpoint o ++ rest) = some (o, rest) := by
  have e1 : (256 : Nat) ^ 32 = 2 ^ 256 := by norm_num
  have e2 : (256 : Nat) ^ 4 = 2 ^ 32 := by norm_num
  have h1 := parseLE_serLE 32 o.hash (serLE 4 o.n ++ rest) (by rw [e1]; exact h256)
  have h2 := parseLE_serLE 4 o.n rest (by rw [e2]; exact h32)
  unfold parseOutpoint serOutpoint serU256 serU32
  rw [List.append_assoc]
  simp [h1, h2]

theorem parseOutpoints_ser (l : List COutPoint) :
    ∀ (rest : List Nat), (∀ o ∈ l, o.hash < 2 ^ 256 ∧ o.n < 2 ^ 32) →
      parseOutpoints l.length ((l.map serOutpoint).flatten ++ rest) = some (l, rest) := by
  induction l with
  | nil => intro rest _; rfl
  | cons o os ih =>
      intro rest hwf
      have h1 := parseOutpoint_ser o ((os.map serOutpoint).flatten ++ rest)
        (hwf o (List.mem_cons_self _ _)).1 (hwf o (List.mem_cons_self _ _)).2
      have h2 := ih rest (fun o' ho' => hwf o' (List.mem_cons_of_mem _ ho'))
      simp only [List.map_cons, List.flatten_cons, List.length_cons, List.append_assoc,
        parseOutpoints, h1, h2]

theorem parseBytesN_exact (bs : List Nat) (n : Nat) (hlen : bs.length = n) :
    parseBytesN n bs = some (bs, []) := by
  unfold parseBytesN
  rw [if_neg (by omega)]
  rw [List.take_of_length_le (by omega), List.drop_eq_nil_of_le (by omega)]

theorem parseLE_long (k : Nat) : ∀ (bs : List Nat), k ≤ bs.length →
    ∃ v, parseLE k bs = some (v, bs.drop k) := by
  induction k with
  | zero => intro bs _; exact ⟨0, rfl⟩
  | succ k ih =>
      intro bs hk
      cases bs with
      | nil => simp at hk
      | cons b rest =>
          obtain ⟨v, hv⟩ := ih rest (by simp at hk; omega)
          refine ⟨v * 256 + b, ?_⟩
          simp only [parseLE, hv, List.drop_succ_cons]

/-- Serialization roundtrip for stored locks: the deterministic-then-legacy
version branch of `GetInstantSendLockByHash` recovers exactly the stored
lock, for well-formed locks of either variant. A stored legacy lock is 32
bytes too short for the deterministic read, which therefore fails and falls
through to the legacy read; a stored deterministic lock already parses on
the first attempt. This connects the byte-level model (`RawDB`,
`parseISLockBytes`) with the abstract store, which holds parsed locks. -/
theorem parseISLock_roundtrip (l : CInstantSendLock)
    (hver : l.version = islock_version ∨ l.version = isdlock_version)
    (hcyc : l.version = islock_version → l.cycleHash = 0)
    (htx : l.txid < 2 ^ 256) (hcy : l.cycleHash < 2 ^ 256)
    (hin : ∀ o ∈ l.inputs, o.hash < 2 ^ 256 ∧ o.n < 2 ^ 32)
    (hcnt : l.inputs.length < 2 ^ 64) (hsig : l.sig.length = 96) :
    (match parseISLockBytes true (serISLock l) with
      | some x => some x
      | none => parseISLockBytes false (serISLock l)) = some l := by
  obtain ⟨ver, txid, ins, cyc, sg⟩ := l
  have e1 : (256 : Nat) ^ 32 = 2 ^ 256 := by norm_num
  rcases hver with hv | hv
  · simp only at hv
    subst hv
    have hc0 : cyc = 0 := hcyc rfl
    subst hc0
    have hdet : CInstantSendLock.IsDeterministic
        ⟨islock_version, txid, ins, 0, sg⟩ = false := by
      simp [CInstantSendLock.IsDeterministic, islock_version, isdlock_version]
    have hser : serISLock ⟨islock_version, txid, ins, 0, sg⟩ =
        serLE 32 txid ++ (serCompactSize ins.length ++
          ((ins.map serOutpoint).flatten ++ sg)) := by
      unfold serISLock serVec serU256
      rw [hdet]
      simp [List.append_assoc]
    have h1 := parseLE_serLE 32 txid
      (serCompactSize ins.length ++ ((ins.map serOutpoint).flatten ++ sg))
      (by rw [e1]; exact htx)
    have h2 := parseCompactSize_ser ins.length ((ins.map serOutpoint).flatten ++ sg) hcnt
    have h3 := parseOutpoints_ser ins sg hin
    obtain ⟨v, hv32⟩ := parseLE_long 32 sg (by simp only at hsig; omega)
    have hshort : parseBytesN 96 (sg.drop 32) = none := by
      unfold parseBytesN
      rw [if_pos (by simp only [List.length_drop] at *; omega)]
    have hfirst : parseISLockBytes true
        (serLE 32 txid ++ (serCompactSize ins.length ++
          ((ins.map serOutpoint).flatten ++ sg))) = none := by
      simp only [parseISLockBytes, h1, h2, h3, if_pos, hv32, hshort]
    have hbytes := parseBytesN_exact sg 96 hsig
    have hsecond : parseISLockBytes false
        (serLE 32 txid ++ (serCompactSize ins.length ++
          ((ins.map serOutpoint).flatten ++ sg))) =
        some ⟨islock_version, txid, ins, 0, sg⟩ := by
      simp only [parseISLockBytes, h1, h2, h3, hbytes]
      simp [hbytes]
    simp only [hser, hfirst, hsecond]
  · simp only at hv
    subst hv
    have hdet : CInstantSendLock.IsDeterministic
        ⟨isdlock_version, txid, ins, cyc, sg⟩ = true := by
      simp [CInstantSendLock.IsDeterministic, isdlock_version]
    have hser : serISLock ⟨isdlock_version, txid, ins, cyc, sg⟩ =
        serLE 32 txid ++ (serCompactSize ins.length ++
          ((ins.map serOutpoint).flatten ++ (serLE 32 cyc ++ sg))) := by
      unfold serISLock serVec serU256
      rw [hdet]
      simp [List.append_assoc]
    have h1 := parseLE_serLE 32 txid
      (serCompactSize ins.length ++ ((ins.map serOutpoint).flatten ++ (serLE 32 cyc ++ sg)))
      (by rw [e1]; exact htx)
    have h2 := parseCompactSize_ser ins.length
      ((ins.map serOutpoint).flatten ++ (serLE 32 cyc ++ sg)) hcnt
    have h3 := parseOutpoints_ser ins (serLE 32 cyc ++ sg) hin
    have h4 := parseLE_serLE 32 cyc sg (by rw [e1]; exact hcy)
    have hbytes := parseBytesN_exact sg 96 hsig
    have hfirst : parseISLockBytes true
        (serLE 32 txid ++ (serCompactSize ins.length ++
          ((ins.map serOutpoint).flatten ++ (serLE 32 cyc ++ sg)))) =
        some ⟨isdlock_version, txid, ins, cyc, sg⟩ := by
      simp only [parseISLockBytes, h1, h2, h3, h4, hbytes]
      simp [hbytes]
    simp only [hser, hfirst]
